import Mathlib

/-!
Verification of the Nazarzoda Tajik dictionary reconstruction pipeline
(`clean_extracted_text.py` and `parse_nazarzoda.py`).

Text is modelled as `List Char`.  The Python regular expressions of the
source are compiled by hand into deterministic scanners; where a regex
admits backtracking, the scanner implements the first match that the
backtracking engine would report (an analysis of each pattern shows the
greedy pieces are committed, so only the documented residual choices
remain).  The character classes `\s` and `\d` are modelled at their
ASCII core, the alphabet actually used by this pipeline.  Recursive
scanners take an explicit fuel argument (always called with
`length + 1`, which is sufficient since every recursive call consumes at
least one character); this keeps every definition a structural recursion
that the kernel can evaluate.
-/

/-- Python `\s` (ASCII part): the whitespace characters. -/
def isSpaceC (c : Char) : Bool :=
  c = ' ' || c = '\t' || c = '\n' || c = '\r' || c = '\x0b' || c = '\x0c'

/-- Python `[0-9]` / `\d` (ASCII part). -/
def isDigitC (c : Char) : Bool :=
  '0' ≤ c && c ≤ '9'

/-- The class `[؀-ۿ]` used for Arabic-script runs. -/
def isArabicC (c : Char) : Bool :=
  0x0600 ≤ c.toNat && c.toNat ≤ 0x06FF

/-- The uppercase Cyrillic class `[А-ЯЁӢҚҒҲЎҶ]` of the headword pattern. -/
def isCyrU (c : Char) : Bool :=
  (0x0410 ≤ c.toNat && c.toNat ≤ 0x042F) || c.toNat = 0x0401 || c.toNat = 0x04E2 ||
    c.toNat = 0x049A || c.toNat = 0x0492 || c.toNat = 0x04B2 || c.toNat = 0x040E ||
    c.toNat = 0x04B6

/-- The lowercase Cyrillic class `[а-яёӣқғҳўҷ]` of the marker pattern. -/
def isCyrL (c : Char) : Bool :=
  (0x0430 ≤ c.toNat && c.toNat ≤ 0x044F) || c.toNat = 0x0451 || c.toNat = 0x04E3 ||
    c.toNat = 0x049B || c.toNat = 0x0493 || c.toNat = 0x04B3 || c.toNat = 0x045E ||
    c.toNat = 0x04B7

/-- The class `[а-яёӣқғҳўҷ.-]` (second and later characters of a marker). -/
def isLangC (c : Char) : Bool :=
  isCyrL c || c = '.' || c = '-'

/-- The class `[IVX]` of roman-numeral homonym markers. -/
def isIVX (c : Char) : Bool :=
  c = 'I' || c = 'V' || c = 'X'

/-- Python `str.strip()`: drop whitespace from both ends. -/
def pyStrip (s : List Char) : List Char :=
  ((s.dropWhile isSpaceC).reverse.dropWhile isSpaceC).reverse

/-- Fuelled core of `re.sub(r'\s+', ' ', s)`: every maximal whitespace
run becomes a single space. -/
def collapseWsF : Nat → List Char → List Char
  | 0, _ => []
  | _, [] => []
  | n + 1, c :: r =>
    if isSpaceC c then ' ' :: collapseWsF n (r.dropWhile isSpaceC)
    else c :: collapseWsF n r

/-- `re.sub(r'\s+', ' ', s)`. -/
def collapseWs (s : List Char) : List Char :=
  collapseWsF (s.length + 1) s

/-- Value of a run of ASCII digits, as Python `int` reads it. -/
def natOfDigits (ds : List Char) : Nat :=
  ds.foldl (fun a c => a * 10 + (c.toNat - 48)) 0

/-- Fuelled core of Python `str.split()` (split on whitespace runs,
dropping empty pieces). -/
def pySplitF : Nat → List Char → List (List Char)
  | 0, _ => []
  | n + 1, s =>
    let s' := s.dropWhile isSpaceC
    if s' = [] then []
    else
      let w := s'.takeWhile (fun c => !isSpaceC c)
      w :: pySplitF n (s'.drop w.length)

/-- Python `str.split()` with no separator argument. -/
def pySplit (s : List Char) : List (List Char) :=
  pySplitF (s.length + 1) s

/-- Python `' '.join(ws)`. -/
def joinSp : List (List Char) → List Char
  | [] => []
  | [w] => w
  | w :: r => w ++ ' ' :: joinSp r

/-- Python `'\n'.join(ls)`. -/
def joinNL : List (List Char) → List Char
  | [] => []
  | [l] => l
  | l :: r => l ++ '\n' :: joinNL r

/-- The word-order repair `_reverse_arabic_word_order` of
`parse_nazarzoda.py` (lines 119-150): an empty text is returned as is;
otherwise the text is split on whitespace, a single word is returned
unchanged, and several words are joined by single spaces in reverse
order. -/
def reverse_arabic_word_order (s : List Char) : List Char :=
  if s = [] then s
  else
    let words := pySplit s
    if words.length = 1 then s
    else joinSp words.reverse

/-- Abbreviation for building the characters of the stored map literals. -/
def ch (n : Nat) : Char := Char.ofNat n

/-- `TAJIK_CYRILLIC_MAP` of `clean_extracted_text.py` (lines 20-36), with Python dict-literal semantics for keys (first-occurrence order, last value wins).  The file stores the malformed sequences as the literal code points given here. -/
def TAJIK_CYRILLIC_MAP : List (List Char × List Char) := [
  ([ch 0x011E, ch 0x2030], [ch 0x00D2, ch 0x00B6]),
  ([ch 0x011E, ch 0x0160], [ch 0x00D2, ch 0x00B2]),
  ([ch 0x011E, ch 0x0192], [ch 0x00D2, ch 0x2019]),
  ([ch 0x011E, ch 0x2021], [ch 0x00D3, ch 0x00A2]),
  ([ch 0x011E], [ch 0x00D3, ch 0x00AE]),
  ([ch 0x011E, ch 0x0152], [ch 0x00D2, ch 0x0161]),
  ([ch 0x00D1, ch 0x2122], [ch 0x00D2, ch 0x00B7]),
  ([ch 0x00D1, ch 0x0161], [ch 0x00D2, ch 0x00B3]),
  ([ch 0x00D1, ch 0x201C], [ch 0x00D2, ch 0x201C]),
  ([ch 0x00D1, ch 0x2014], [ch 0x00D3, ch 0x00A3]),
  ([ch 0x00D1], [ch 0x00D3, ch 0x00AF]),
  ([ch 0x00D1, ch 0x0153], [ch 0x00D2, ch 0x203A])
]

/-- `ARABIC_PRESENTATION_FORMS` of `clean_extracted_text.py` (lines 40-141), with Python dict-literal semantics for duplicate keys (first-occurrence order, last value wins). -/
def ARABIC_PRESENTATION_FORMS : List (List Char × List Char) := [
  ([ch 0x00EF, ch 0x00BA], [ch 0x00D8, ch 0x00A2]),
  ([ch 0x00EF, ch 0x00BA, ch 0x2019], [ch 0x00D8, ch 0x00A8]),
  ([ch 0x00EF, ch 0x00BA, ch 0x2018], [ch 0x00D8, ch 0x00A8]),
  ([ch 0x00EF, ch 0x00BA, ch 0x2013], [ch 0x00D8, ch 0x00AA]),
  ([ch 0x00EF, ch 0x00BA, ch 0x2022], [ch 0x00D8, ch 0x00AA]),
  ([ch 0x00EF, ch 0x00BA, ch 0x02DC], [ch 0x00D8, ch 0x00AA]),
  ([ch 0x00EF, ch 0x00BA, ch 0x2014], [ch 0x00D8, ch 0x00AA]),
  ([ch 0x00EF, ch 0x00BA, ch 0x0161], [ch 0x00D8, ch 0x00AB]),
  ([ch 0x00EF, ch 0x00BA, ch 0x2122], [ch 0x00D8, ch 0x00AB]),
  ([ch 0x00EF, ch 0x00BA, ch 0x0153], [ch 0x00D8, ch 0x00AB]),
  ([ch 0x00EF, ch 0x00BA, ch 0x203A], [ch 0x00D8, ch 0x00AB]),
  ([ch 0x00EF, ch 0x00BA, ch 0x00A0], [ch 0x00D8, ch 0x00AC]),
  ([ch 0x00EF, ch 0x00BA, ch 0x0178], [ch 0x00D8, ch 0x00AC]),
  ([ch 0x00EF, ch 0x00BA, ch 0x00A2], [ch 0x00D8, ch 0x00AD]),
  ([ch 0x00EF, ch 0x00BA, ch 0x00A1], [ch 0x00D8, ch 0x00AD]),
  ([ch 0x00EF, ch 0x00BA, ch 0x00A4], [ch 0x00D8, ch 0x00AD]),
  ([ch 0x00EF, ch 0x00BA, ch 0x00A3], [ch 0x00D8, ch 0x00AD]),
  ([ch 0x00EF, ch 0x00BA, ch 0x00A6], [ch 0x00D8, ch 0x00AE]),
  ([ch 0x00EF, ch 0x00BA, ch 0x00A5], [ch 0x00D8, ch 0x00AE]),
  ([ch 0x00EF, ch 0x00BA, ch 0x00A8], [ch 0x00D8, ch 0x00AE]),
  ([ch 0x00EF, ch 0x00BA, ch 0x00A7], [ch 0x00D8, ch 0x00AE]),
  ([ch 0x00EF, ch 0x00BA, ch 0x00AA], [ch 0x00D8, ch 0x00AF]),
  ([ch 0x00EF, ch 0x00BA, ch 0x00A9], [ch 0x00D8, ch 0x00AF]),
  ([ch 0x00EF, ch 0x00BA, ch 0x00AC], [ch 0x00D8, ch 0x00B0]),
  ([ch 0x00EF, ch 0x00BA, ch 0x00AB], [ch 0x00D8, ch 0x00B0]),
  ([ch 0x00EF, ch 0x00BA, ch 0x00AE], [ch 0x00D8, ch 0x00B1]),
  ([ch 0x00EF, ch 0x00BA, ch 0x00AD], [ch 0x00D8, ch 0x00B1]),
  ([ch 0x00EF, ch 0x00BA, ch 0x00B0], [ch 0x00D8, ch 0x00B2]),
  ([ch 0x00EF, ch 0x00BA, ch 0x00AF], [ch 0x00D8, ch 0x00B2]),
  ([ch 0x00EF, ch 0x00BA, ch 0x00B2], [ch 0x00D8, ch 0x00B3]),
  ([ch 0x00EF, ch 0x00BA, ch 0x00B1], [ch 0x00D8, ch 0x00B3]),
  ([ch 0x00EF, ch 0x00BA, ch 0x00B4], [ch 0x00D8, ch 0x00B3]),
  ([ch 0x00EF, ch 0x00BA, ch 0x00B3], [ch 0x00D8, ch 0x00B3]),
  ([ch 0x00EF, ch 0x00BA, ch 0x00B6], [ch 0x00D8, ch 0x00B4]),
  ([ch 0x00EF, ch 0x00BA, ch 0x00B5], [ch 0x00D8, ch 0x00B4]),
  ([ch 0x00EF, ch 0x00BA, ch 0x00B8], [ch 0x00D8, ch 0x00B4]),
  ([ch 0x00EF, ch 0x00BA, ch 0x00B7], [ch 0x00D8, ch 0x00B4]),
  ([ch 0x00EF, ch 0x00BA, ch 0x00BA], [ch 0x00D8, ch 0x00B5]),
  ([ch 0x00EF, ch 0x00BA, ch 0x00B9], [ch 0x00D8, ch 0x00B5]),
  ([ch 0x00EF, ch 0x00BA, ch 0x00BC], [ch 0x00D8, ch 0x00B5]),
  ([ch 0x00EF, ch 0x00BA, ch 0x00BB], [ch 0x00D8, ch 0x00B5]),
  ([ch 0x00EF, ch 0x00BA, ch 0x00BE], [ch 0x00D8, ch 0x00B6]),
  ([ch 0x00EF, ch 0x00BA, ch 0x00BD], [ch 0x00D8, ch 0x00B6]),
  ([ch 0x00EF, ch 0x00BB, ch 0x20AC], [ch 0x00D8, ch 0x00B6]),
  ([ch 0x00EF, ch 0x00BA, ch 0x00BF], [ch 0x00D8, ch 0x00B6]),
  ([ch 0x00EF, ch 0x00BB, ch 0x201A], [ch 0x00D8, ch 0x00B7]),
  ([ch 0x00EF, ch 0x00BB], [ch 0x00D9, ch 0x201E]),
  ([ch 0x00EF, ch 0x00BB, ch 0x201E], [ch 0x00D8, ch 0x00B7]),
  ([ch 0x00EF, ch 0x00BB, ch 0x0192], [ch 0x00D8, ch 0x00B7]),
  ([ch 0x00EF, ch 0x00BB, ch 0x2020], [ch 0x00D8, ch 0x00B8]),
  ([ch 0x00EF, ch 0x00BB, ch 0x2026], [ch 0x00D8, ch 0x00B8]),
  ([ch 0x00EF, ch 0x00BB, ch 0x02C6], [ch 0x00D8, ch 0x00B8]),
  ([ch 0x00EF, ch 0x00BB, ch 0x2021], [ch 0x00D8, ch 0x00B8]),
  ([ch 0x00EF, ch 0x00BB, ch 0x0160], [ch 0x00D8, ch 0x00B9]),
  ([ch 0x00EF, ch 0x00BB, ch 0x2030], [ch 0x00D8, ch 0x00B9]),
  ([ch 0x00EF, ch 0x00BB, ch 0x0152], [ch 0x00D8, ch 0x00B9]),
  ([ch 0x00EF, ch 0x00BB, ch 0x2039], [ch 0x00D8, ch 0x00B9]),
  ([ch 0x00EF, ch 0x00BB, ch 0x2019], [ch 0x00D9]),
  ([ch 0x00EF, ch 0x00BB, ch 0x2018], [ch 0x00D9]),
  ([ch 0x00EF, ch 0x00BB, ch 0x201D], [ch 0x00D9]),
  ([ch 0x00EF, ch 0x00BB, ch 0x201C], [ch 0x00D9]),
  ([ch 0x00EF, ch 0x00BB, ch 0x2013], [ch 0x00D9, ch 0x201A]),
  ([ch 0x00EF, ch 0x00BB, ch 0x2022], [ch 0x00D9, ch 0x201A]),
  ([ch 0x00EF, ch 0x00BB, ch 0x02DC], [ch 0x00D9, ch 0x201A]),
  ([ch 0x00EF, ch 0x00BB, ch 0x2014], [ch 0x00D9, ch 0x201A]),
  ([ch 0x00EF, ch 0x00BB, ch 0x0161], [ch 0x00DA, ch 0x00A9]),
  ([ch 0x00EF, ch 0x00BB, ch 0x2122], [ch 0x00DA, ch 0x00A9]),
  ([ch 0x00EF, ch 0x00BB, ch 0x0153], [ch 0x00DA, ch 0x00A9]),
  ([ch 0x00EF, ch 0x00BB, ch 0x203A], [ch 0x00DA, ch 0x00A9]),
  ([ch 0x00EF, ch 0x00BB, ch 0x00A0], [ch 0x00D9, ch 0x201E]),
  ([ch 0x00EF, ch 0x00BB, ch 0x0178], [ch 0x00D9, ch 0x201E]),
  ([ch 0x00EF, ch 0x00BB, ch 0x00A2], [ch 0x00D9, ch 0x2026]),
  ([ch 0x00EF, ch 0x00BB, ch 0x00A1], [ch 0x00D9, ch 0x2026]),
  ([ch 0x00EF, ch 0x00BB, ch 0x00A4], [ch 0x00D9, ch 0x2026]),
  ([ch 0x00EF, ch 0x00BB, ch 0x00A3], [ch 0x00D9, ch 0x2026]),
  ([ch 0x00EF, ch 0x00BB, ch 0x00A6], [ch 0x00D9, ch 0x2020]),
  ([ch 0x00EF, ch 0x00BB, ch 0x00A5], [ch 0x00D9, ch 0x2020]),
  ([ch 0x00EF, ch 0x00BB, ch 0x00A8], [ch 0x00D9, ch 0x2020]),
  ([ch 0x00EF, ch 0x00BB, ch 0x00A7], [ch 0x00D9, ch 0x2020]),
  ([ch 0x00EF, ch 0x00BB, ch 0x00AA], [ch 0x00D9, ch 0x2021]),
  ([ch 0x00EF, ch 0x00BB, ch 0x00A9], [ch 0x00D9, ch 0x2021]),
  ([ch 0x00EF, ch 0x00BB, ch 0x00AC], [ch 0x00D9, ch 0x2021]),
  ([ch 0x00EF, ch 0x00BB, ch 0x00AB], [ch 0x00D9, ch 0x2021]),
  ([ch 0x00EF, ch 0x00BB, ch 0x00AE], [ch 0x00D9, ch 0x02C6]),
  ([ch 0x00EF, ch 0x00BB, ch 0x00AD], [ch 0x00D9, ch 0x02C6]),
  ([ch 0x00EF, ch 0x00BB, ch 0x00B2], [ch 0x00DB, ch 0x0152]),
  ([ch 0x00EF, ch 0x00BB, ch 0x00B1], [ch 0x00DB, ch 0x0152]),
  ([ch 0x00EF, ch 0x00BB, ch 0x00B4], [ch 0x00DB, ch 0x0152]),
  ([ch 0x00EF, ch 0x00BB, ch 0x00B3], [ch 0x00DB, ch 0x0152]),
  ([ch 0x00EF, ch 0x00BB, ch 0x00B0], [ch 0x00DB, ch 0x0152]),
  ([ch 0x00EF, ch 0x00BB, ch 0x00AF], [ch 0x00DB, ch 0x0152]),
  ([ch 0x00EF, ch 0x00AD, ch 0x2013], [ch 0x00D9, ch 0x00BE]),
  ([ch 0x00EF, ch 0x00AD, ch 0x02DC], [ch 0x00D9, ch 0x00BE]),
  ([ch 0x00EF, ch 0x00AD, ch 0x2122], [ch 0x00D9, ch 0x00BE]),
  ([ch 0x00EF, ch 0x00AD, ch 0x00BB], [ch 0x00DA, ch 0x2020]),
  ([ch 0x00EF, ch 0x00AD, ch 0x00BA], [ch 0x00DA, ch 0x2020]),
  ([ch 0x00EF, ch 0x00AD, ch 0x00BC], [ch 0x00DA, ch 0x2020]),
  ([ch 0x00EF, ch 0x00AD, ch 0x00BD], [ch 0x00DA, ch 0x2020]),
  ([ch 0x00EF, ch 0x00AE, ch 0x2039], [ch 0x00DA, ch 0x02DC]),
  ([ch 0x00EF, ch 0x00AE], [ch 0x00DA, ch 0x00A9]),
  ([ch 0x00EF, ch 0x00AE, ch 0x2018], [ch 0x00DA, ch 0x00A9]),
  ([ch 0x00EF, ch 0x00AE, ch 0x201C], [ch 0x00DA, ch 0x00AF]),
  ([ch 0x00EF, ch 0x00AE, ch 0x2019], [ch 0x00DA, ch 0x00AF]),
  ([ch 0x00EF, ch 0x00AE, ch 0x2022], [ch 0x00DA, ch 0x00AF]),
  ([ch 0x00EF, ch 0x00AE, ch 0x201D], [ch 0x00DA, ch 0x00AF]),
  ([ch 0x00EF, ch 0x00BA, ch 0x20AC], [ch 0x00D8, ch 0x00A1]),
  ([ch 0x00EF, ch 0x00BA, ch 0x201A], [ch 0x00D8, ch 0x00A2]),
  ([ch 0x00EF, ch 0x00BA, ch 0x201E], [ch 0x00D8, ch 0x00A3]),
  ([ch 0x00EF, ch 0x00BA, ch 0x0192], [ch 0x00D8, ch 0x00A3]),
  ([ch 0x00EF, ch 0x00BA, ch 0x2020], [ch 0x00D8, ch 0x00A4]),
  ([ch 0x00EF, ch 0x00BA, ch 0x2026], [ch 0x00D8, ch 0x00A4]),
  ([ch 0x00EF, ch 0x00BA, ch 0x02C6], [ch 0x00D8, ch 0x00A5]),
  ([ch 0x00EF, ch 0x00BA, ch 0x2021], [ch 0x00D8, ch 0x00A5]),
  ([ch 0x00EF, ch 0x00BA, ch 0x0160], [ch 0x00D8, ch 0x00A6]),
  ([ch 0x00EF, ch 0x00BA, ch 0x2030], [ch 0x00D8, ch 0x00A6]),
  ([ch 0x00EF, ch 0x00BA, ch 0x0152], [ch 0x00D8, ch 0x00A6]),
  ([ch 0x00EF, ch 0x00BA, ch 0x2039], [ch 0x00D8, ch 0x00A6]),
  ([ch 0x00EF, ch 0x00BA, ch 0x201D], [ch 0x00D8, ch 0x00A9]),
  ([ch 0x00EF, ch 0x00BA, ch 0x201C], [ch 0x00D8, ch 0x00A9])
]


/-- Fuelled core of Python `str.replace(k, v)`: replace the leftmost
occurrence of `k`, continue after the inserted `v`, scanning left to
right (non-overlapping).  `k = []` never occurs for the stored maps; the
scanner then simply copies the text. -/
def replaceAllF (k v : List Char) : Nat → List Char → List Char
  | 0, _ => []
  | _, [] => []
  | n + 1, c :: t =>
    if k ≠ [] ∧ k.isPrefixOf (c :: t) then v ++ replaceAllF k v n (t.drop (k.length - 1))
    else c :: replaceAllF k v n t

/-- Python `s.replace(k, v)`. -/
def replaceAll (k v s : List Char) : List Char :=
  replaceAllF k v (s.length + 1) s

/-- Apply every entry of a character map in order, as the loops of
`clean_tajik_cyrillic` and `clean_arabic_script` do (the replacement
counting done there for diagnostics does not affect the text). -/
def applyMap (m : List (List Char × List Char)) (s : List Char) : List Char :=
  m.foldl (fun t p => replaceAll p.1 p.2 t) s

/-- `clean_tajik_cyrillic` of `clean_extracted_text.py` (lines 144-163). -/
def clean_tajik_cyrillic (s : List Char) : List Char :=
  applyMap TAJIK_CYRILLIC_MAP s

/-- `clean_arabic_script` of `clean_extracted_text.py` (lines 166-179). -/
def clean_arabic_script (s : List Char) : List Char :=
  applyMap ARABIC_PRESENTATION_FORMS s

/-- Fuelled core of `reverse_arabic_text`: `re.sub(r'[\u0600-\u06FF]+', reverse, text)`
reverses every maximal run of Arabic-block characters in place. -/
def reverse_arabic_textF : Nat → List Char → List Char
  | 0, _ => []
  | _, [] => []
  | n + 1, c :: t =>
    if isArabicC c then
      let run := (c :: t).takeWhile isArabicC
      run.reverse ++ reverse_arabic_textF n ((c :: t).dropWhile isArabicC)
    else c :: reverse_arabic_textF n t

/-- `reverse_arabic_text` of `clean_extracted_text.py` (lines 182-225). -/
def reverse_arabic_text (s : List Char) : List Char :=
  reverse_arabic_textF (s.length + 1) s

/-- The text transformation of `clean_dictionary_text`
(`clean_extracted_text.py` lines 228-259): Tajik Cyrillic repair, then
Arabic presentation-form repair, then Arabic run reversal, in that
order, each applied exactly once to the whole document. -/
def clean_dictionary_text (s : List Char) : List Char :=
  reverse_arabic_text (clean_arabic_script (clean_tajik_cyrillic s))

/-- `LANGUAGE_ETYMOLOGY` of `parse_nazarzoda.py` (lines 23-54). -/
def LANGUAGE_ETYMOLOGY : List (List Char × List Char) := [
  ("а.".toList, "арабӣ".toList),
  ("англ.".toList, "англисӣ".toList),
  ("ак.".toList, "аккадӣ".toList),
  ("ибр.".toList, "ибрӣ".toList),
  ("исп.".toList, "испанӣ".toList),
  ("ит.".toList, "италиявӣ".toList),
  ("кит.".toList, "китобӣ".toList),
  ("лот.".toList, "лотинӣ".toList),
  ("м.".toList, "муғулӣ".toList),
  ("мал.".toList, "малайзӣ".toList),
  ("олм.".toList, "олмонӣ".toList),
  ("пол.".toList, "поландӣ".toList),
  ("порт.".toList, "португалӣ".toList),
  ("р.".toList, "русӣ".toList),
  ("санс.".toList, "санскрит".toList),
  ("сур.".toList, "суриёнӣ".toList),
  ("т.".toList, "туркӣ".toList),
  ("т.-м.".toList, "туркию муғулӣ".toList),
  ("тибет.".toList, "тибетӣ".toList),
  ("фин.".toList, "финландӣ".toList),
  ("фр.".toList, "фаронсавӣ".toList),
  ("хит.".toList, "хитоӣ".toList),
  ("њ.".toList, "ҳиндӣ".toList),
  ("њол.".toList, "ҳолландӣ".toList),
  ("ч.".toList, "чехӣ".toList),
  ("швед.".toList, "шведӣ".toList),
  ("ю.".toList, "юнонӣ".toList),
  ("я.".toList, "яҳудӣ".toList),
  ("яп.".toList, "японӣ".toList),
  ("д.".toList, "динӣ".toList)
]

/-- `REGISTER_DOMAIN` of `parse_nazarzoda.py` (lines 57-116). -/
def REGISTER_DOMAIN : List (List Char × List Char) := [
  ("адш.".toList, "адабиётшиносӣ".toList),
  ("анат.".toList, "анатомия".toList),
  ("асот.".toList, "асотирӣ, асотиршиносӣ".toList),
  ("афс.".toList, "афсонавӣ".toList),
  ("байт.".toList, "байторӣ".toList),
  ("барқ.".toList, "барқӣ, электрӣ".toList),
  ("баҳр.".toList, "баҳрнавардӣ".toList),
  ("биол.".toList, "биология".toList),
  ("боғп.".toList, "боғпарварӣ".toList),
  ("бот.".toList, "ботаника".toList),
  ("боф.".toList, "бофандагӣ".toList),
  ("варз.".toList, "варзиш".toList),
  ("геол.".toList, "геология".toList),
  ("грам.".toList, "грамматика".toList),
  ("гуфт.".toList, "гуфтугӯӣ".toList),
  ("дӯз.".toList, "дӯзандагӣ".toList),
  ("збш.".toList, "забоншиносӣ".toList),
  ("зоол.".toList, "зоология".toList),
  ("иқт.".toList, "иқтисод".toList),
  ("итт.".toList, "иттилоотшиносӣ".toList),
  ("кайҳ.".toList, "кайҳоннавардӣ".toList),
  ("кин.".toList, "киноявӣ".toList),
  ("кит.".toList, "китобӣ".toList),
  ("кишов.".toList, "кишоварзӣ".toList),
  ("кҳн.".toList, "кӯҳнашуда".toList),
  ("лаҳҷ.".toList, "лаҳҷавӣ".toList),
  ("мант.".toList, "мантиқ".toList),
  ("маҷ.".toList, "маҷозан".toList),
  ("маъд.".toList, "маъданшиносӣ".toList),
  ("меъ.".toList, "меъморӣ".toList),
  ("мол.".toList, "молия".toList),
  ("мус.".toList, "мусиқӣ".toList),
  ("нав.".toList, "навсохт".toList),
  ("нашр.".toList, "нашриёт".toList),
  ("нуҷ.".toList, "илми нуҷум".toList),
  ("обҳш.".toList, "обуҳавошиносӣ".toList),
  ("омӯз.".toList, "омӯзгорӣ".toList),
  ("радио.".toList, "радиотехника".toList),
  ("риёз.".toList, "риёзиёт, математика".toList),
  ("р.-оҳ.".toList, "роҳи оҳан".toList),
  ("с.".toList, "сиёсӣ".toList),
  ("санъ.".toList, "санъат".toList),
  ("сохт.".toList, "сохтмон".toList),
  ("таҳқ.".toList, "сухани таҳқиромез".toList),
  ("таър.".toList, "таърихӣ".toList),
  ("тех.".toList, "техника".toList),
  ("тиб.".toList, "тиббӣ".toList),
  ("фалс.".toList, "фалсафа".toList),
  ("физ.".toList, "физика".toList),
  ("фолк.".toList, "фолклор".toList),
  ("хим.".toList, "химия".toList),
  ("хӯр.".toList, "хӯрокворӣ".toList),
  ("њ.".toList, "ҳарбӣ".toList),
  ("ҳанд.".toList, "ҳандаса".toList),
  ("ҳисобд.".toList, "ҳисобдорӣ".toList),
  ("ҳуқ.".toList, "ҳуқуқшиносӣ".toList),
  ("чорв.".toList, "чорводорӣ".toList),
  ("ҷуғр.".toList, "ҷуғрофия".toList)
]


/-- Helper: does the text start with a whitespace character. -/
def startsWithWs : List Char → Bool
  | [] => false
  | c :: _ => isSpaceC c

/-- Helper: does the text start with an Arabic-block character. -/
def startsWithArabic : List Char → Bool
  | [] => false
  | c :: _ => isArabicC c

/-- Fuelled star loop of the headword pattern
`(?:\s+[IVX]+|//[А-ЯЁӢҚҒҲЎҶ]+)*`: collects the maximal sequence of
iterations, each iteration recorded as the characters it consumed.  The
two alternatives need a whitespace respectively a slash first, so the
choice at each step is deterministic, and each greedy piece is committed
(giving characters back can never satisfy the next piece). -/
def starItersF : Nat → List Char → List (List Char) × List Char
  | 0, s => ([], s)
  | n + 1, s =>
    let ws := s.takeWhile isSpaceC
    if ws ≠ [] then
      let r1 := s.drop ws.length
      let ivx := r1.takeWhile isIVX
      if ivx ≠ [] then
        let p := starItersF n (r1.drop ivx.length)
        ((ws ++ ivx) :: p.1, p.2)
      else ([], s)
    else
      match s with
      | '/' :: '/' :: r2 =>
        let cy := r2.takeWhile isCyrU
        if cy ≠ [] then
          let p := starItersF n (r2.drop cy.length)
          (('/' :: '/' :: cy) :: p.1, p.2)
        else ([], s)
      | _ => ([], s)

/-- Backtracking of the star before the final `\s+` of the segmentation
headword regex: iterations are undone from the end until the remaining
text starts with whitespace (an undone `\s+[IVX]+` iteration itself
starts with whitespace, so the popping stops there).  The first argument
is the reversed iteration list. -/
def popBackRev : List (List Char) → List Char → Option (List (List Char) × List Char)
  | [], rest => if startsWithWs rest then some ([], rest) else none
  | last :: prev, rest =>
    if startsWithWs rest then some ((last :: prev).reverse, rest)
    else popBackRev prev (last ++ rest)

/-- The segmentation headword test of `parse_dictionary_text`
(line 189): `re.match(r'^\s*([А-ЯЁӢҚҒҲЎҶ]{2,}(?:\s+[IVX]+|//[А-ЯЁӢҚҒҲЎҶ]+)*)\s+', line)`.
Returns group 1 and `match.end()` (the index after the final greedy
whitespace run). -/
def header_match (line : List Char) : Option (List Char × Nat) :=
  let ws0 := line.takeWhile isSpaceC
  let rest0 := line.drop ws0.length
  let cyr := rest0.takeWhile isCyrU
  if cyr.length < 2 then none
  else
    let afterCyr := rest0.drop cyr.length
    let p := starItersF (afterCyr.length + 1) afterCyr
    match popBackRev p.1.reverse p.2 with
    | none => none
    | some q =>
      let g := cyr ++ q.1.flatten
      let wsF := q.2.takeWhile isSpaceC
      some (g, ws0.length + g.length + wsF.length)

/-- The extraction headword test of `_process_entry` (line 264):
`re.match(r'^([А-ЯЁӢҚҒҲЎҶ]{2,}(?:\s+[IVX]+|//[А-ЯЁӢҚҒҲЎҶ]+)*)', header_line)`.
No leading `\s*` and no trailing `\s+`, so all star iterations are
kept.  Returns group 1 and its end index. -/
def headword_match (s : List Char) : Option (List Char × Nat) :=
  let cyr := s.takeWhile isCyrU
  if cyr.length < 2 then none
  else
    let afterCyr := s.drop cyr.length
    let p := starItersF (afterCyr.length + 1) afterCyr
    let g := cyr ++ p.1.flatten
    some (g, g.length)

/-- The marker shape test of the validation lookahead (line 199):
`re.match(r'^([а-яёӣқғҳўҷ][а-яёӣқғҳўҷ.-]{0,6})\s+', check_text)`.
The class run after the first letter is committed greedy, so the match
succeeds exactly when that maximal run has length at most 6 and is
followed by a whitespace character. -/
def has_marker (w : List Char) : Bool :=
  match w with
  | [] => false
  | c :: t =>
    isCyrL c && (t.takeWhile isLangC).length ≤ 6 &&
      startsWithWs (t.drop (t.takeWhile isLangC).length)

/-- The etymology-marker test of `_process_entry` (line 277):
`re.match(r'^([а-яёӣқғҳўҷ][а-яёӣқғҳўҷ.-]{0,6})\s+(?=[\u0600-\u06FF])', remainder)`.
Returns group 1 and `match.end()` (after the whitespace run; the
lookahead consumes nothing). -/
def lang_match (r : List Char) : Option (List Char × Nat) :=
  match r with
  | [] => none
  | c :: t =>
    if isCyrL c then
      let run := t.takeWhile isLangC
      if run.length ≤ 6 then
        let afterRun := t.drop run.length
        let ws := afterRun.takeWhile isSpaceC
        if ws ≠ [] ∧ startsWithArabic (afterRun.drop ws.length) then
          some (c :: run, 1 + run.length + ws.length)
        else none
      else none
    else none

/-- Expansion with fallback, Python `LANGUAGE_ETYMOLOGY.get(ab, ab)`. -/
def langExpand (ab : List Char) : List Char :=
  match LANGUAGE_ETYMOLOGY.find? (fun p => p.1 == ab) with
  | some p => p.2
  | none => ab

/-- Fuelled star of the Arabic-gloss pattern
`(?:\s+[\u0600-\u06FF]+)*`: whitespace then another Arabic run, as
long as both are nonempty. -/
def arabicStarF : Nat → List Char → List Char
  | 0, _ => []
  | n + 1, s =>
    let ws := s.takeWhile isSpaceC
    if ws = [] then []
    else
      let r1 := s.drop ws.length
      let a := r1.takeWhile isArabicC
      if a = [] then []
      else ws ++ a ++ arabicStarF n (r1.drop a.length)

/-- The gloss test of `_process_entry` (line 286):
`re.match(r'^([\u0600-\u06FF]+(?:\s+[\u0600-\u06FF]+)*)', remainder)`.
Returns group 1 and its end index. -/
def arabic_match (r : List Char) : Option (List Char × Nat) :=
  let a0 := r.takeWhile isArabicC
  if a0 = [] then none
  else
    let g := a0 ++ arabicStarF ((r.drop a0.length).length + 1) (r.drop a0.length)
    some (g, g.length)

/-- Stable insertion for the descending-by-key-length sort: a new pair
goes after all pairs whose key is at least as long, which is what
Python stable `sorted(keys, key=len, reverse=True)` produces. -/
def insertDesc (x : List Char × List Char) : List (List Char × List Char) → List (List Char × List Char)
  | [] => [x]
  | y :: ys => if x.1.length ≤ y.1.length then y :: insertDesc x ys else x :: y :: ys

/-- `sorted(keys, key=len, reverse=True)` over the pairs of a table. -/
def sortByKeyLenDesc (l : List (List Char × List Char)) : List (List Char × List Char) :=
  l.foldl (fun acc x => insertDesc x acc) []

/-- The loop body of the register search (`_process_entry` lines
303-309): the first marker in the given order such that the remainder
starts with `marker + ' '` or equals the marker. -/
def findMarker : List (List Char × List Char) → List Char → Option (List Char × List Char)
  | [], _ => none
  | kv :: rest, r =>
    if (kv.1 ++ [' ']).isPrefixOf r || r = kv.1 then some kv
    else findMarker rest r

/-- The register-marker extraction of `_process_entry` (lines 295-309),
parameterised by the table: keys sorted by descending length (stable),
first match wins. -/
def register_lookup (tbl : List (List Char × List Char)) (r : List Char) : Option (List Char × List Char) :=
  findMarker (sortByKeyLenDesc tbl) r

/-- The lookahead `(?=\s+\d+\.|$)` of the numbered-definition pattern
(with the Python semantics of `$`: end of text, or just before a final
newline).  Inside the lookahead the greedy pieces are committed, so the
first alternative holds exactly when a nonempty whitespace run is
followed by a nonempty digit run followed by a period. -/
def laTest (s : List Char) : Bool :=
  (let ws := s.takeWhile isSpaceC
   ws ≠ [] &&
     (let r1 := s.drop ws.length
      let ds := r1.takeWhile isDigitC
      ds ≠ [] && (match r1.drop ds.length with
                  | '.' :: _ => true
                  | _ => false)))
  || s = [] || s = ['\n']

/-- Lazy growth of `([^0-9]+?)`: take characters one at a time (never a
digit), stopping at the first position where the lookahead succeeds.
Returns the captured text and the unconsumed rest. -/
def growT : List Char → List Char → Option (List Char × List Char)
  | _, [] => none
  | acc, c :: r =>
    if isDigitC c then none
    else if laTest r then some (acc ++ [c], r)
    else growT (acc ++ [c]) r

/-- Backtracking of the greedy `\s+` before `([^0-9]+?)`: try first the
maximal whitespace run, then shorter ones down to length 1. -/
def tryWs : Nat → List Char → Option (List Char × List Char)
  | 0, _ => none
  | k + 1, rest1 =>
    match growT [] (rest1.drop (k + 1)) with
    | some p => some p
    | none => tryWs k rest1

/-- One attempt of the numbered-definition pattern
`(\d+)\.\s+([^0-9]+?)(?=\s+\d+\.|$)` anchored at the start of `s`:
a maximal digit run directly followed by a period (giving digits back
cannot produce the period), then the whitespace/lazy-text search.
Returns the number, the captured text and the rest after the match. -/
def matchNumAt (s : List Char) : Option (Nat × List Char × List Char) :=
  if s.takeWhile isDigitC = [] then none
  else
    match s.drop (s.takeWhile isDigitC).length with
    | '.' :: rest1 =>
      if rest1.takeWhile isSpaceC = [] then none
      else
        match tryWs (rest1.takeWhile isSpaceC).length rest1 with
        | some p => some (natOfDigits (s.takeWhile isDigitC), p.1, p.2)
        | none => none
    | _ => none

/-- Fuelled `re.findall` scan: attempt the pattern at every position,
continuing after the end of each match. -/
def findNumberedF : Nat → List Char → List (Nat × List Char)
  | 0, _ => []
  | _, [] => []
  | n + 1, s =>
    match matchNumAt s with
    | some q => (q.1, q.2.1) :: findNumberedF n q.2.2
    | none => findNumberedF n s.tail

/-- `_parse_definitions` of `parse_nazarzoda.py` (lines 353-377): all
matches of the numbered pattern, each definition stripped and its
whitespace runs collapsed to single spaces. -/
def parse_definitions (text : List Char) : List (Nat × List Char) :=
  (findNumberedF (text.length + 1) text).map (fun p => (p.1, collapseWs (pyStrip p.2)))

/-- One attempt of the contamination pattern
`([А-ЯЁӢҚҒҲЎҶ]{2,})\s+([\u0600-\u06FF]+)` anchored at the start of
`s`: a maximal uppercase run of length at least 2, then whitespace, then
an Arabic character (greedy pieces committed). -/
def contamMatchAt (s : List Char) : Bool :=
  let u := s.takeWhile isCyrU
  2 ≤ u.length &&
    (let r1 := s.drop u.length
     let ws := r1.takeWhile isSpaceC
     ws ≠ [] && startsWithArabic (r1.drop ws.length))

/-- Fuelled `re.search` scan for the contamination pattern: index of the
leftmost position where it matches. -/
def contamSearchF : Nat → Nat → List Char → Option Nat
  | 0, _, _ => none
  | _, _, [] => none
  | n + 1, i, s =>
    if contamMatchAt s then some i else contamSearchF n (i + 1) s.tail

/-- Leftmost contamination match position, `re.search(contamination_pattern, text)`. -/
def contamSearch (s : List Char) : Option Nat :=
  contamSearchF (s.length + 1) 0 s

/-- `_clean_single_definition` of `parse_nazarzoda.py` (lines 407-424):
truncate at the first contamination match and strip; otherwise return
the text unchanged. -/
def clean_single_definition (s : List Char) : List Char :=
  match contamSearch s with
  | some i => pyStrip (s.take i)
  | none => s

/-- `_clean_definitions` of `parse_nazarzoda.py` (lines 380-404): the
same truncation applied to each numbered definition (the body of the
per-item step is identical to `_clean_single_definition`). -/
def clean_definitions (ds : List (Nat × List Char)) : List (Nat × List Char) :=
  ds.map (fun p => (p.1, clean_single_definition p.2))

/-- One output row of the parser (one definition of one entry). -/
structure Row where
  headword : List Char
  arabic : Option (List Char)
  language_marker : Option (List Char)
  register : Option (List Char)
  definition_number : Option Nat
  definition : List Char
deriving DecidableEq, Repr

/-- `_process_entry` of `parse_nazarzoda.py` (lines 245-350). -/
def process_entry (header_line definition_text : List Char) : Option (List Row) :=
  match headword_match header_line with
  | none => none
  | some he =>
    let headword := pyStrip he.1
    let remainder0 := pyStrip (header_line.drop he.2)
    let lm := lang_match remainder0
    let language_marker := lm.map (fun ae => langExpand ae.1)
    let remainder1 := match lm with
      | some ae => pyStrip (remainder0.drop ae.2)
      | none => remainder0
    let am := arabic_match remainder1
    let arabic := am.map (fun ge => reverse_arabic_word_order (pyStrip ge.1))
    let remainder2 := match am with
      | some ge => pyStrip (remainder1.drop ge.2)
      | none => remainder1
    let rm := register_lookup REGISTER_DOMAIN remainder2
    let register := rm.map (fun kv => kv.2)
    let remainder3 := match rm with
      | some kv => pyStrip (remainder2.drop kv.1.length)
      | none => remainder2
    let full_text := remainder3 ++ '\n' :: definition_text
    let definitions := clean_definitions (parse_definitions full_text)
    if definitions ≠ [] then
      some (definitions.map (fun p =>
        { headword := headword, arabic := arabic, language_marker := language_marker,
          register := register, definition_number := some p.1,
          definition := pyStrip p.2 }))
    else
      let d0 := pyStrip remainder3
      let d1 := if d0 = [] then pyStrip definition_text else d0
      some [{ headword := headword, arabic := arabic, language_marker := language_marker,
              register := register, definition_number := none,
              definition := clean_single_definition d1 }]

/-- Match of the page-marker pattern `--- PAGE \d+ ---\n` at the start
of `s` (`parse_dictionary_text` line 173); returns the rest after the
match.  The digit run is committed greedy, and must be followed by
`" ---"` and a newline. -/
def pageMarkerAt (s : List Char) : Option (List Char) :=
  if ("--- PAGE ".toList).isPrefixOf s then
    let r1 := s.drop 9
    let ds := r1.takeWhile isDigitC
    if ds ≠ [] ∧ (" ---\n".toList).isPrefixOf (r1.drop ds.length) then
      some ((r1.drop ds.length).drop 5)
    else none
  else none

/-- Fuelled `re.sub(r'--- PAGE \d+ ---\n', '', text)` scan. -/
def removePageMarkersF : Nat → List Char → List Char
  | 0, _ => []
  | _, [] => []
  | n + 1, c :: t =>
    match pageMarkerAt (c :: t) with
    | some rest => removePageMarkersF n rest
    | none => c :: removePageMarkersF n t

/-- Page-marker removal applied to the whole document. -/
def removePageMarkers (s : List Char) : List Char :=
  removePageMarkersF (s.length + 1) s

/-- Fuelled Python `text.split('\n')`. -/
def splitLinesF : Nat → List Char → List (List Char)
  | 0, _ => []
  | n + 1, s =>
    let line := s.takeWhile (fun c => c ≠ '\n')
    match s.drop line.length with
    | [] => [line]
    | _ :: r => line :: splitLinesF n r

/-- Python `text.split('\n')`. -/
def splitLines (s : List Char) : List (List Char) :=
  splitLinesF (s.length + 1) s

/-- The acceptance test of the segmentation loop
(`parse_dictionary_text` lines 189-201): the headword pattern matches
and the 100-character window after the match contains an Arabic
character or starts with the marker shape. -/
def accept_line (line : List Char) : Bool :=
  match header_match line with
  | none => false
  | some ge =>
    let w := (line.drop ge.2).take 100
    w.any isArabicC || has_marker w

/-- The segmentation loop of `parse_dictionary_text` (lines 187-233),
with state `cur` (the stripped header of the open entry, if any) and
`body` (its accumulated stripped body lines); at the end the open entry
is flushed.  `Option.getD []` renders the Python truthiness test
`if entry_data:`. -/
def parse_linesGo : List (List Char) → Option (List Char) → List (List Char) → List Row
  | [], cur, body =>
    (match cur with
     | none => []
     | some h => (process_entry h (joinNL body)).getD [])
  | line :: rest, cur, body =>
    match header_match line with
    | some ge =>
      if ((line.drop ge.2).take 100).any isArabicC || has_marker ((line.drop ge.2).take 100) then
        (match cur with
         | none => []
         | some h => (process_entry h (joinNL body)).getD []) ++
          parse_linesGo rest (some (pyStrip line)) []
      else
        match cur with
        | some _ => parse_linesGo rest cur (body ++ [pyStrip line])
        | none => parse_linesGo rest cur body
    | none =>
      match cur with
      | some _ => parse_linesGo rest cur (body ++ [pyStrip line])
      | none => parse_linesGo rest cur body

/-- `parse_dictionary_text` of `parse_nazarzoda.py` (lines 153-242):
page markers removed, the text split into lines, and the segmentation
loop run from the empty state. -/
def parse_dictionary_text (text : List Char) : List Row :=
  parse_linesGo (splitLines (removePageMarkers text)) none []

/-- Classification of one input line by the segmentation loop. -/
inductive LineTag
  | header
  | body
  | noise
deriving DecidableEq, Repr

/-- The classification each line receives from the segmentation loop:
an accepted headword line opens an entry, every other line is body text
of the open entry or discarded pre-entry noise. -/
def tagLinesGo : List (List Char) → Bool → List LineTag
  | [], _ => []
  | line :: rest, inE =>
    if accept_line line then LineTag.header :: tagLinesGo rest true
    else if inE then LineTag.body :: tagLinesGo rest inE
    else LineTag.noise :: tagLinesGo rest inE

/-- Line classification of a document, starting outside any entry. -/
def tagLines (lines : List (List Char)) : List LineTag :=
  tagLinesGo lines false

/-- The raw entry blocks the segmentation loop produces: stripped header
line plus stripped body lines, flushed when the next accepted header
arrives or at end of input. -/
def segmentBlocksGo : List (List Char) → Option (List Char × List (List Char)) → List (List Char × List (List Char))
  | [], cur =>
    (match cur with
     | none => []
     | some b => [b])
  | line :: rest, cur =>
    if accept_line line then
      (match cur with
       | none => []
       | some b => [b]) ++ segmentBlocksGo rest (some (pyStrip line, []))
    else
      match cur with
      | none => segmentBlocksGo rest none
      | some hb => segmentBlocksGo rest (some (hb.1, hb.2 ++ [pyStrip line]))

/-- The raw entry blocks of a document. -/
def segmentBlocks (lines : List (List Char)) : List (List Char × List (List Char)) :=
  segmentBlocksGo lines none

/-- The shape the specification describes for the validation lookahead:
the window contains, anywhere, a lowercase-letter token of 1 to 7
characters immediately followed by a period and whitespace. -/
def claimEtymShape (w : List Char) : Bool :=
  w.tails.any (fun t =>
    let run := t.takeWhile isCyrL
    1 ≤ run.length && run.length ≤ 7 &&
      (match t.drop run.length with
       | '.' :: r => startsWithWs r
       | _ => false))

/-- The contamination signature the specification describes: an
uppercase run of two or more letters immediately followed (no
intervening characters) by a foreign-script span. -/
def claimContamShape (s : List Char) : Bool :=
  s.tails.any (fun t =>
    let u := t.takeWhile isCyrU
    2 ≤ u.length && startsWithArabic (t.drop u.length))

/-- The characters with which every malformed key of the two character
maps begins. -/
def isKI (c : Char) : Bool :=
  c = ch 0x011E || c = ch 0x00D1 || c = ch 0x00EF

/-- The characters with which every replacement value of the two
character maps begins. -/
def isVI (c : Char) : Bool :=
  c = ch 0x00D2 || c = ch 0x00D3 || c = ch 0x00D8 || c = ch 0x00D9 ||
    c = ch 0x00DA || c = ch 0x00DB

/-- Does the text start with a key-initial character. -/
def startsKI : List Char → Bool
  | [] => false
  | c :: _ => isKI c

/-- Does the text start with a value-initial character. -/
def startsVI : List Char → Bool
  | [] => false
  | c :: _ => isVI c

/-- Shape of every malformed key of the two maps: nonempty, begins with
a key-initial character, and contains no value-initial character. -/
def KeyShape (k : List Char) : Prop :=
  startsKI k = true ∧ ∀ c ∈ k, isVI c = false

/-- Shape of every replacement value of the two maps: nonempty, begins
with a value-initial character, and contains no key-initial
character. -/
def ValShape (v : List Char) : Prop :=
  startsVI v = true ∧ ∀ c ∈ v, isKI c = false

/-- The contamination signature as the amended claim states it: at this
position an uppercase run of two or more letters is followed by
whitespace and then a foreign-script character. -/
def ContamSpec (t : List Char) : Prop :=
  ∃ u w a rest, t = u ++ w ++ a :: rest ∧ 2 ≤ u.length ∧ (∀ c ∈ u, isCyrU c = true) ∧
    w ≠ [] ∧ (∀ c ∈ w, isSpaceC c = true) ∧ isArabicC a = true

/-- C1: the end-to-end scenario.  Processing the raw block whose header
line is `"СЕВ I а. سیب барг some gloss text 1. red fruit 2. a color"`
with an empty body yields exactly the two claimed rows: headword
`"СЕВ I"`, etymology marker expanded to `"арабӣ"`, single-token gloss
`"سیب"` unchanged, no register marker, and the senses `(1, "red fruit")`
and `(2, "a color")` in that order. -/
theorem C1_end_to_end :
    process_entry "СЕВ I а. سیب барг some gloss text 1. red fruit 2. a color".toList "".toList =
      some
        [{ headword := "СЕВ I".toList, arabic := some "سیب".toList,
           language_marker := some "арабӣ".toList, register := none,
           definition_number := some 1, definition := "red fruit".toList },
         { headword := "СЕВ I".toList, arabic := some "سیب".toList,
           language_marker := some "арабӣ".toList, register := none,
           definition_number := some 2, definition := "a color".toList }] := by
  decide

/-- C2, counterexample: for the block with header line `"АБ x"` and body
`"hello world"` no numbered match exists, and the code produces the
single sense `"x"` — the header-line remainder alone — whereas the claim
prescribes the whole whitespace-collapsed candidate text
`"x hello world"` (header remainder concatenated with the body). -/
theorem C2_counterexample :
    process_entry "АБ x".toList "hello world".toList =
        some
          [{ headword := "АБ".toList, arabic := none, language_marker := none,
             register := none, definition_number := none, definition := "x".toList }] ∧
      collapseWs ("x".toList ++ '\n' :: "hello world".toList) = "x hello world".toList ∧
      "x".toList ≠ "x hello world".toList := by
  refine ⟨by decide, by decide, by decide⟩

/-- C3, counterexample: the line `"АБ ва хоб"` matches the headword
pattern, its window contains no Arabic character and no lowercase token
followed by a period and whitespace (the shape the claim requires), yet
the segmenter accepts the line as an entry boundary, because the code
only requires a lowercase letter plus up to six class characters
followed by whitespace — no period. -/
theorem C3_counterexample :
    accept_line "АБ ва хоб".toList = true ∧
      header_match "АБ ва хоб".toList = some ("АБ".toList, 3) ∧
      (("АБ ва хоб".toList.drop 3).take 100).any isArabicC = false ∧
      claimEtymShape (("АБ ва хоб".toList.drop 3).take 100) = false := by
  refine ⟨by decide, by decide, by decide, by decide⟩

/-- C5, counterexample: in `"АБفف"` an uppercase run is immediately
followed by a foreign-script span (the claim's signature, which would
truncate the text at its start, producing the empty text), but the code
pattern requires whitespace between the two, so the text is returned
unchanged. -/
theorem C5_counterexample :
    clean_single_definition "АБفف".toList = "АБفف".toList ∧
      claimContamShape "АБفف".toList = true ∧
      "АБفف".toList ≠ ([] : List Char) := by
  refine ⟨by decide, by decide, by decide⟩

/-- C6, counterexample: with a register table containing the key `т.`,
the remaining text `"т.\tх"` has that key as a prefix followed by
whitespace (a tab), yet no marker is extracted, because the code tests
`startswith(marker + ' ')` with a literal space (or exact equality), not
arbitrary whitespace. -/
theorem C6_counterexample :
    register_lookup [("т.".toList, "А".toList), ("т.-м.".toList, "Б".toList)]
        ("т.".toList ++ '\t' :: "х".toList) = none ∧
      ("т.".toList).isPrefixOf ("т.".toList ++ '\t' :: "х".toList) = true ∧
      isSpaceC '\t' = true := by
  refine ⟨by decide, by decide, by decide⟩

/-- C7, counterexample: the gloss span `"ا  ب"` (two words separated by
a double space) is not restored by applying the word-order reversal
twice: the second application returns the words joined by single
spaces. -/
theorem C7_counterexample :
    reverse_arabic_word_order (reverse_arabic_word_order "ا  ب".toList) ≠ "ا  ب".toList := by
  decide

/-- If `dropWhile` leaves a nonempty list, its head fails the predicate. -/
theorem dropWhile_head_false {p : Char → Bool} :
    ∀ (l : List Char) (c : Char) (t : List Char), l.dropWhile p = c :: t → p c = false := by
  intro l
  induction l with
  | nil => intro c t h; simp [List.dropWhile] at h
  | cons a l ih =>
    intro c t h
    by_cases hp : p a
    · exact ih c t (by simpa [List.dropWhile, hp] using h)
    · simp only [List.dropWhile, hp] at h
      cases h
      simpa using hp

/-- `dropWhile` is the identity on a list whose head fails the predicate. -/
theorem dropWhile_cons_false {p : Char → Bool} {c : Char} {t : List Char}
    (h : p c = false) : (c :: t).dropWhile p = c :: t := by
  simp [List.dropWhile, h]

/-- `takeWhile` takes exactly a left factor all of whose elements satisfy
the predicate when the right factor is empty or starts by failing it. -/
theorem takeWhile_left_all {p : Char → Bool} :
    ∀ (a b : List Char), (∀ c ∈ a, p c = true) →
      (∀ c t, b = c :: t → p c = false) →
      (a ++ b).takeWhile p = a := by
  intro a
  induction a with
  | nil =>
    intro b _ hb
    cases b with
    | nil => rfl
    | cons c t => simp [List.takeWhile, hb c t rfl]
  | cons x a ih =>
    intro b ha hb
    have hx := ha x (by simp)
    simp only [List.cons_append, List.takeWhile, hx]
    simp [ih b (fun c hc => ha c (by simp [hc])) hb]

/-- The fuelled splitter returns nothing on the empty text. -/
theorem pySplitF_nil : ∀ n, pySplitF n [] = [] := by
  intro n
  cases n with
  | zero => rfl
  | succ m => simp [pySplitF]

/-- The fuelled splitter only looks at the text after its leading
whitespace. -/
theorem pySplitF_congr {x y : List Char} (n : Nat)
    (h : x.dropWhile isSpaceC = y.dropWhile isSpaceC) :
    pySplitF (n + 1) x = pySplitF (n + 1) y := by
  simp only [pySplitF, h]

/-- One unfolding step of the fuelled splitter on a text that is not
all whitespace. -/
theorem pySplitF_step (n : Nat) (s : List Char) (hne : s.dropWhile isSpaceC ≠ []) :
    pySplitF (n + 1) s =
      (s.dropWhile isSpaceC).takeWhile (fun c => !isSpaceC c) ::
        pySplitF n ((s.dropWhile isSpaceC).drop
          ((s.dropWhile isSpaceC).takeWhile (fun c => !isSpaceC c)).length) := by
  simp only [pySplitF, if_neg hne]

/-- Splitting the single-space join of nonempty whitespace-free words
recovers the words (fuelled form). -/
theorem pySplitF_joinSp :
    ∀ (ws : List (List Char)) (n : Nat), (joinSp ws).length < n →
      (∀ w ∈ ws, w ≠ [] ∧ ∀ c ∈ w, isSpaceC c = false) →
      pySplitF n (joinSp ws) = ws := by
  intro ws
  induction ws with
  | nil =>
    intro n hn _
    cases n with
    | zero => omega
    | succ m => simp [joinSp, pySplitF]
  | cons w r ih =>
    intro n hn hws
    obtain ⟨hw, hwc⟩ := hws w (by simp)
    obtain ⟨cw, tw, rfl⟩ : ∃ cw tw, w = cw :: tw := by
      cases w with
      | nil => exact absurd rfl hw
      | cons cw tw => exact ⟨cw, tw, rfl⟩
    have hcw : isSpaceC cw = false := hwc cw (by simp)
    cases n with
    | zero => omega
    | succ m =>
      cases r with
      | nil =>
        have hdw : (cw :: tw).dropWhile isSpaceC = cw :: tw := dropWhile_cons_false hcw
        have htw : (cw :: tw).takeWhile (fun c => !isSpaceC c) = cw :: tw := by
          have := takeWhile_left_all (p := fun c => !isSpaceC c) (cw :: tw) []
            (fun c hc => by simp [hwc c hc]) (fun c t h => by cases h)
          simpa using this
        simp only [joinSp, pySplitF, hdw, htw]
        simp [List.drop_length, pySplitF_nil]
      | cons r0 r1 =>
        have hj : joinSp ((cw :: tw) :: r0 :: r1) =
            cw :: (tw ++ ' ' :: joinSp (r0 :: r1)) := by
          simp [joinSp]
        have hdw : List.dropWhile isSpaceC (cw :: (tw ++ ' ' :: joinSp (r0 :: r1))) =
            cw :: (tw ++ ' ' :: joinSp (r0 :: r1)) := dropWhile_cons_false hcw
        have htw : List.takeWhile (fun c => !isSpaceC c) (cw :: (tw ++ ' ' :: joinSp (r0 :: r1))) =
            cw :: tw := by
          have h1 := takeWhile_left_all (p := fun c => !isSpaceC c) (cw :: tw)
            (' ' :: joinSp (r0 :: r1)) (fun c hc => by simp [hwc c hc])
            (fun c t h => by injection h with h2 _; rw [← h2]; decide)
          simpa [List.cons_append] using h1
        have hdrop : List.drop (tw.length + 1) (cw :: (tw ++ ' ' :: joinSp (r0 :: r1))) =
            ' ' :: joinSp (r0 :: r1) := by
          have h1 := List.drop_left (cw :: tw) (' ' :: joinSp (r0 :: r1))
          simp only [List.cons_append, List.length_cons] at h1
          exact h1
        cases m with
        | zero =>
          rw [hj] at hn
          simp only [List.length_cons] at hn
          omega
        | succ m' =>
          have hcong : pySplitF (m' + 1) (' ' :: joinSp (r0 :: r1)) =
              pySplitF (m' + 1) (joinSp (r0 :: r1)) := by
            apply pySplitF_congr
            rw [List.dropWhile_cons]
            simp [show isSpaceC ' ' = true from rfl]
          have hlen : (joinSp (r0 :: r1)).length < m' + 1 := by
            rw [hj] at hn
            simp only [List.length_cons, List.length_append] at hn
            omega
          have hih := ih (m' + 1) hlen (fun x hx => hws x (by simp [hx]))
          rw [hj, pySplitF_step _ _ (by rw [hdw]; simp)]
          rw [hdw, htw]
          simp only [List.length_cons]
          rw [hdrop, hcong, hih]

/-- Splitting the single-space join of nonempty whitespace-free words
recovers the words. -/
theorem pySplit_joinSp (ws : List (List Char))
    (h : ∀ w ∈ ws, w ≠ [] ∧ ∀ c ∈ w, isSpaceC c = false) :
    pySplit (joinSp ws) = ws :=
  pySplitF_joinSp ws ((joinSp ws).length + 1) (by omega) h

/-- Every word produced by the fuelled splitter is nonempty and free of
whitespace. -/
theorem pySplitF_words :
    ∀ (n : Nat) (s : List Char), ∀ w ∈ pySplitF n s, w ≠ [] ∧ ∀ c ∈ w, isSpaceC c = false := by
  intro n
  induction n with
  | zero => intro s w hw; simp [pySplitF] at hw
  | succ m ih =>
    intro s w hw
    simp only [pySplitF] at hw
    by_cases hs : s.dropWhile isSpaceC = []
    · simp [hs] at hw
    · simp only [hs, if_neg hs] at hw
      rcases List.mem_cons.mp hw with h1 | h2
      · subst h1
        obtain ⟨c, t, hct⟩ : ∃ c t, s.dropWhile isSpaceC = c :: t := by
          cases hdw : s.dropWhile isSpaceC with
          | nil => exact absurd hdw hs
          | cons c t => exact ⟨c, t, rfl⟩
        constructor
        · have hc : isSpaceC c = false := dropWhile_head_false s c t hct
          simp [hct, List.takeWhile, hc]
        · intro c' hc'
          have h2 := List.mem_takeWhile_imp hc'
          simpa using h2
      · exact ih _ w h2

/-- Every word of a Python split is nonempty and free of whitespace. -/
theorem pySplit_words (s : List Char) :
    ∀ w ∈ pySplit s, w ≠ [] ∧ ∀ c ∈ w, isSpaceC c = false :=
  pySplitF_words _ s

/-- C7, amended: the word-order reversal is an involution on canonical
gloss spans — spans that are exactly the single-space join of their
whitespace-delimited words (no leading or trailing whitespace, single
spaces between words); on such spans applying it twice returns the
original span.  Applying it once to a span with exactly one token is the
identity unconditionally.  (The original claim fails on spans with other
separators, e.g. a double space, which the second application replaces
by single spaces.) -/
theorem C7_word_reversal (s : List Char) :
    (joinSp (pySplit s) = s →
        reverse_arabic_word_order (reverse_arabic_word_order s) = s) ∧
      ((pySplit s).length = 1 → reverse_arabic_word_order s = s) := by
  have single : ∀ t : List Char, (pySplit t).length = 1 → reverse_arabic_word_order t = t := by
    intro t h1
    unfold reverse_arabic_word_order
    by_cases ht : t = []
    · simp [ht]
    · simp [ht, h1]
  refine ⟨?_, single s⟩
  intro h
  by_cases hs : s = []
  · subst hs
    rfl
  by_cases h1 : (pySplit s).length = 1
  · rw [single s h1, single s h1]
  · have hf : reverse_arabic_word_order s = joinSp (pySplit s).reverse := by
      unfold reverse_arabic_word_order
      simp [hs, h1]
    have hwords : ∀ w ∈ (pySplit s).reverse, w ≠ [] ∧ ∀ c ∈ w, isSpaceC c = false := by
      intro w hw
      exact pySplit_words s w (List.mem_reverse.mp hw)
    have hsplit2 : pySplit (joinSp (pySplit s).reverse) = (pySplit s).reverse :=
      pySplit_joinSp _ hwords
    have hne2 : joinSp (pySplit s).reverse ≠ [] := by
      intro hnil
      rw [hnil] at hsplit2
      have : pySplit ([] : List Char) = [] := by decide
      rw [this] at hsplit2
      have : pySplit s = [] := by
        have := congrArg List.reverse hsplit2
        simpa using this.symm
      rw [this] at h
      exact hs (by simpa [joinSp] using h.symm)
    have hlen2 : (pySplit (joinSp (pySplit s).reverse)).length ≠ 1 := by
      rw [hsplit2]
      simpa using h1
    rw [hf]
    simp only [reverse_arabic_word_order]
    rw [if_neg hne2, hsplit2,
      if_neg (show ¬(pySplit s).reverse.length = 1 by simpa using h1),
      List.reverse_reverse]
    exact h

/-- Witness for C7: a concrete two-word span in canonical form is
restored by a double reversal, and a concrete one-token span is fixed by
a single reversal. -/
theorem C7_witness :
    reverse_arabic_word_order (reverse_arabic_word_order "ب ا".toList) = "ب ا".toList ∧
      reverse_arabic_word_order "اب".toList = "اب".toList :=
  ⟨(C7_word_reversal "ب ا".toList).1 (by decide),
   (C7_word_reversal "اب".toList).2 (by decide)⟩

/-- Membership in a stable descending insertion. -/
theorem mem_insertDesc (x y : List Char × List Char) :
    ∀ l, y ∈ insertDesc x l ↔ y = x ∨ y ∈ l := by
  intro l
  induction l with
  | nil => simp [insertDesc]
  | cons a l ih =>
    by_cases h : x.1.length ≤ a.1.length
    · simp only [insertDesc, if_pos h, List.mem_cons, ih]
      tauto
    · simp only [insertDesc, if_neg h, List.mem_cons]

/-- Membership is preserved by the descending sort. -/
theorem mem_sortByKeyLenDesc (x : List Char × List Char) (l : List (List Char × List Char)) :
    x ∈ sortByKeyLenDesc l ↔ x ∈ l := by
  suffices h : ∀ (l acc : List (List Char × List Char)),
      x ∈ l.foldl (fun acc y => insertDesc y acc) acc ↔ x ∈ acc ∨ x ∈ l by
    have := h l []
    simpa [sortByKeyLenDesc] using this
  intro l
  induction l with
  | nil => simp
  | cons a l ih =>
    intro acc
    simp only [List.foldl_cons, ih, mem_insertDesc, List.mem_cons]
    tauto

/-- The descending insertion keeps the list pairwise sorted by
descending key length. -/
theorem pairwise_insertDesc (x : List Char × List Char) :
    ∀ l, l.Pairwise (fun a b => b.1.length ≤ a.1.length) →
      (insertDesc x l).Pairwise (fun a b => b.1.length ≤ a.1.length) := by
  intro l
  induction l with
  | nil => simp [insertDesc]
  | cons a l ih =>
    intro hp
    rw [List.pairwise_cons] at hp
    by_cases h : x.1.length ≤ a.1.length
    · rw [insertDesc, if_pos h, List.pairwise_cons]
      constructor
      · intro b hb
        rcases (mem_insertDesc x b l).mp hb with h1 | h2
        · rw [h1]; exact h
        · exact hp.1 b h2
      · exact ih hp.2
    · rw [insertDesc, if_neg h, List.pairwise_cons]
      constructor
      · intro b hb
        rcases List.mem_cons.mp hb with h1 | h2
        · rw [h1]; omega
        · have := hp.1 b h2
          omega
      · exact List.pairwise_cons.mpr hp

/-- What `findMarker` returns is a matching member of its list, and
when the list is sorted by descending key length it is a longest
matching key. -/
theorem findMarker_spec :
    ∀ (l : List (List Char × List Char)) (r k v : List Char),
      l.Pairwise (fun a b => b.1.length ≤ a.1.length) →
      findMarker l r = some (k, v) →
      ((k ++ [' ']).isPrefixOf r || r = k) = true ∧ (k, v) ∈ l ∧
        ∀ k' v', (k', v') ∈ l → ((k' ++ [' ']).isPrefixOf r || r = k') = true →
          k'.length ≤ k.length := by
  intro l
  induction l with
  | nil => intro r k v _ h; simp [findMarker] at h
  | cons a l ih =>
    intro r k v hp h
    rw [List.pairwise_cons] at hp
    by_cases hm : ((a.1 ++ [' ']).isPrefixOf r || r = a.1) = true
    · rw [findMarker, if_pos hm] at h
      injection h with h1
      constructor
      · rw [h1] at hm
        simpa using hm
      constructor
      · rw [← h1]
        simp
      · intro k' v' hmem _
        rcases List.mem_cons.mp hmem with h2 | h3
        · rw [h1] at h2
          simp only [Prod.mk.injEq] at h2
          simp [h2.1]
        · have h4 := hp.1 (k', v') h3
          rw [h1] at h4
          simpa using h4
    · rw [findMarker, if_neg (by simpa using hm)] at h
      obtain ⟨hmatch, hmem, hmax⟩ := ih r k v hp.2 h
      refine ⟨hmatch, by simp [hmem], ?_⟩
      intro k' v' hmem' hm'
      rcases List.mem_cons.mp hmem' with h2 | h3
      · exfalso
        apply hm
        rw [show k' = a.1 from congrArg Prod.fst h2] at hm'
        exact hm'
      · exact hmax k' v' h3 hm'

/-- The sorted table is pairwise sorted by descending key length. -/
theorem sortByKeyLenDesc_pairwise (l : List (List Char × List Char)) :
    (sortByKeyLenDesc l).Pairwise (fun a b => b.1.length ≤ a.1.length) := by
  suffices h : ∀ (l acc : List (List Char × List Char)),
      acc.Pairwise (fun a b => b.1.length ≤ a.1.length) →
      (l.foldl (fun acc y => insertDesc y acc) acc).Pairwise
        (fun a b => b.1.length ≤ a.1.length) by
    exact h l [] (by simp)
  intro l
  induction l with
  | nil => intro acc h; simpa using h
  | cons a l ih =>
    intro acc h
    exact ih _ (pairwise_insertDesc a acc h)

/-- C6, amended: the register extraction tests the table keys in
descending key-length order and the first (hence a longest) matching key
wins, where a key matches when the remainder starts with the key
followed by a space character, or equals the key outright (end of
text) — not arbitrary whitespace.  In particular, with keys `т.` and
`т.-м.` both applicable, the remainder `"т.-м. sense text"` yields
`т.-м.` with its full expansion, never `т.`. -/
theorem C6_register_longest :
    (∀ (tbl : List (List Char × List Char)) (r k v : List Char),
        register_lookup tbl r = some (k, v) →
          ((k ++ [' ']).isPrefixOf r || r = k) = true ∧ (k, v) ∈ tbl ∧
            ∀ k' v', (k', v') ∈ tbl → ((k' ++ [' ']).isPrefixOf r || r = k') = true →
              k'.length ≤ k.length) ∧
      register_lookup [("т.".toList, "туркӣ".toList), ("т.-м.".toList, "туркию муғулӣ".toList)]
          "т.-м. sense text".toList = some ("т.-м.".toList, "туркию муғулӣ".toList) := by
  constructor
  · intro tbl r k v h
    obtain ⟨hmatch, hmem, hmax⟩ :=
      findMarker_spec (sortByKeyLenDesc tbl) r k v (sortByKeyLenDesc_pairwise tbl) h
    refine ⟨hmatch, (mem_sortByKeyLenDesc _ tbl).mp hmem, ?_⟩
    intro k' v' hmem' hm'
    exact hmax k' v' ((mem_sortByKeyLenDesc _ tbl).mpr hmem') hm'
  · decide

/-- Witness for C6: applying the theorem to the two-key table shows the
extracted pair is a member of the table. -/
theorem C6_witness :
    ("т.-м.".toList, "туркию муғулӣ".toList) ∈
      [("т.".toList, "туркӣ".toList), ("т.-м.".toList, "туркию муғулӣ".toList)] :=
  (C6_register_longest.1 [("т.".toList, "туркӣ".toList), ("т.-м.".toList, "туркию муғулӣ".toList)]
    "т.-м. sense text".toList "т.-м.".toList "туркию муғулӣ".toList C6_register_longest.2).2.1

/-- A whitespace character is not an uppercase Cyrillic letter. -/
theorem space_not_cyrU {c : Char} (h : isSpaceC c = true) : isCyrU c = false := by
  simp only [isSpaceC, Bool.or_eq_true, decide_eq_true_eq] at h
  rcases h with ((((h | h) | h) | h) | h) | h <;> subst h <;> decide

/-- A whitespace character is not in the Arabic block. -/
theorem space_not_arabic {c : Char} (h : isSpaceC c = true) : isArabicC c = false := by
  simp only [isSpaceC, Bool.or_eq_true, decide_eq_true_eq] at h
  rcases h with ((((h | h) | h) | h) | h) | h <;> subst h <;> decide

/-- An Arabic-block character is not whitespace. -/
theorem arabic_not_space {c : Char} (h : isArabicC c = true) : isSpaceC c = false := by
  cases hs : isSpaceC c with
  | false => rfl
  | true => rw [space_not_arabic hs] at h; cases h

/-- Dropping the length of the `takeWhile` gives the `dropWhile`. -/
theorem takeWhile_drop (p : Char → Bool) :
    ∀ s : List Char, s.drop (s.takeWhile p).length = s.dropWhile p := by
  intro s
  induction s with
  | nil => rfl
  | cons c t ih =>
    by_cases h : p c
    · simp [List.takeWhile_cons, List.dropWhile_cons, h, ih]
    · simp [List.takeWhile_cons, List.dropWhile_cons, Bool.of_not_eq_true h]

/-- Splitting a list at its `takeWhile`. -/
theorem takeWhile_append_drop (p : Char → Bool) (s : List Char) :
    s = s.takeWhile p ++ s.drop (s.takeWhile p).length := by
  rw [takeWhile_drop]
  exact (List.takeWhile_append_dropWhile p s).symm

/-- The anchored contamination test holds exactly when the amended
claim's signature is present at this position. -/
theorem contamMatchAt_iff (t : List Char) : contamMatchAt t = true ↔ ContamSpec t := by
  constructor
  · intro h
    simp only [contamMatchAt, Bool.and_eq_true, decide_eq_true_eq] at h
    obtain ⟨hu, hw, ha⟩ := h
    obtain ⟨a, rest, har⟩ : ∃ a rest,
        (t.drop (t.takeWhile isCyrU).length).drop
          ((t.drop (t.takeWhile isCyrU).length).takeWhile isSpaceC).length = a :: rest := by
      cases hd : (t.drop (t.takeWhile isCyrU).length).drop
          ((t.drop (t.takeWhile isCyrU).length).takeWhile isSpaceC).length with
      | nil =>
        rw [hd] at ha
        cases ha
      | cons a rest => exact ⟨a, rest, rfl⟩
    refine ⟨t.takeWhile isCyrU,
      (t.drop (t.takeWhile isCyrU).length).takeWhile isSpaceC, a, rest, ?_, hu,
      fun c hc => List.mem_takeWhile_imp hc, hw,
      fun c hc => List.mem_takeWhile_imp hc, ?_⟩
    · have e2 := takeWhile_append_drop isSpaceC (t.drop (t.takeWhile isCyrU).length)
      rw [har] at e2
      conv_lhs => rw [takeWhile_append_drop isCyrU t]
      rw [List.append_assoc]
      congr 1
    · rw [har] at ha
      simpa [startsWithArabic] using ha
  · rintro ⟨u, w, a, rest, rfl, hu, huc, hwne, hwc, ha⟩
    obtain ⟨cw, tw, rfl⟩ : ∃ cw tw, w = cw :: tw := by
      cases w with
      | nil => exact absurd rfl hwne
      | cons cw tw => exact ⟨cw, tw, rfl⟩
    rw [List.append_assoc]
    have htu : (u ++ ((cw :: tw) ++ a :: rest)).takeWhile isCyrU = u := by
      apply takeWhile_left_all u _ huc
      intro c t h
      injection h with h1 _
      rw [← h1]
      exact space_not_cyrU (hwc cw (by simp))
    have hdu : (u ++ ((cw :: tw) ++ a :: rest)).drop u.length = (cw :: tw) ++ a :: rest :=
      List.drop_left u _
    have htw : ((cw :: tw) ++ a :: rest).takeWhile isSpaceC = cw :: tw := by
      apply takeWhile_left_all _ _ hwc
      intro c t h
      injection h with h1 _
      rw [← h1]
      exact arabic_not_space ha
    have hdw : ((cw :: tw) ++ a :: rest).drop (cw :: tw).length = a :: rest :=
      List.drop_left _ _
    simp only [contamMatchAt, htu, hdu, htw, hdw, Bool.and_eq_true, decide_eq_true_eq]
    refine ⟨hu, by simp, by simp [startsWithArabic, ha]⟩

/-- Unfolding of the fuelled contamination search on a cons cell. -/
theorem contamSearchF_cons (n i : Nat) (c : Char) (t : List Char) :
    contamSearchF (n + 1) i (c :: t) =
      if contamMatchAt (c :: t) then some i else contamSearchF n (i + 1) t := rfl

/-- The contamination search finds nothing in the empty text. -/
theorem contamSearchF_nil (n i : Nat) : contamSearchF n i [] = none := by
  cases n <;> rfl

/-- Out of fuel, the contamination search reports nothing. -/
theorem contamSearchF_zero_fuel (i : Nat) (s : List Char) : contamSearchF 0 i s = none := by
  cases s <;> rfl

/-- Shifting the base index shifts the reported position. -/
theorem contamSearchF_shift :
    ∀ (k : Nat) (u : List Char) (i : Nat),
      contamSearchF k (i + 1) u = (contamSearchF k i u).map (· + 1) := by
  intro k
  induction k with
  | zero => intro u i; rw [contamSearchF_zero_fuel, contamSearchF_zero_fuel]; rfl
  | succ k ihk =>
    intro u i
    cases u with
    | nil => rw [contamSearchF_nil, contamSearchF_nil]; rfl
    | cons a b =>
      by_cases h : contamMatchAt (a :: b) = true
      · rw [contamSearchF_cons, contamSearchF_cons, if_pos h, if_pos h]
        rfl
      · rw [contamSearchF_cons, contamSearchF_cons, if_neg h, if_neg h]
        exact ihk b (i + 1)

/-- The fuelled contamination search at base index 0 finds the leftmost
matching position, and reports `none` exactly when no position
matches. -/
theorem contamSearchF_zero :
    ∀ (n : Nat) (s : List Char), s.length < n →
      (∀ j, contamSearchF n 0 s = some j →
          contamMatchAt (s.drop j) = true ∧ ∀ m, m < j → contamMatchAt (s.drop m) = false) ∧
        (contamSearchF n 0 s = none → ∀ m, contamMatchAt (s.drop m) = false) := by
  intro n
  induction n with
  | zero => intro s h; omega
  | succ n ih =>
    intro s hlen
    cases s with
    | nil =>
      constructor
      · intro j hj
        rw [contamSearchF_nil] at hj
        cases hj
      · intro _ m
        rw [List.drop_nil]
        decide
    | cons c t =>
      by_cases hm : contamMatchAt (c :: t) = true
      · constructor
        · intro j hj
          rw [contamSearchF_cons, if_pos hm] at hj
          injection hj with hj
          subst hj
          exact ⟨hm, fun m h => by omega⟩
        · intro hnone
          rw [contamSearchF_cons, if_pos hm] at hnone
          cases hnone
      · have ht := ih t (by simpa using Nat.lt_of_succ_lt_succ hlen)
        constructor
        · intro j hj
          rw [contamSearchF_cons, if_neg hm, contamSearchF_shift] at hj
          cases hcall : contamSearchF n 0 t with
          | none => rw [hcall] at hj; cases hj
          | some j' =>
            rw [hcall] at hj
            simp only [Option.map_some'] at hj
            injection hj with hj
            subst hj
            obtain ⟨h1, h2⟩ := ht.1 j' hcall
            refine ⟨by simpa using h1, ?_⟩
            intro m hmj
            cases m with
            | zero => simpa using (Bool.not_eq_true _).mp (by simpa using hm)
            | succ m' =>
              have h3 := h2 m' (by omega)
              simpa using h3
        · intro hnone
          rw [contamSearchF_cons, if_neg hm, contamSearchF_shift] at hnone
          cases hcall : contamSearchF n 0 t with
          | some j' => rw [hcall] at hnone; cases hnone
          | none =>
            intro m
            cases m with
            | zero => simpa using (Bool.not_eq_true _).mp (by simpa using hm)
            | succ m' =>
              have h3 := ht.2 hcall m'
              simpa using h3

/-- C5, amended: for every produced sense text, numbered or unnumbered,
the truncation searches for the contamination signature — an uppercase
source-script run of two or more letters followed by whitespace and then
a foreign-script span (the code requires at least one whitespace
character between the run and the span, so the two are not immediately
adjacent) — and truncates the text, then trims it, at the leftmost such
position; a text without the signature is returned unchanged; and the
numbered cleaner applies exactly this per-item step.  In particular
`"ок ПАРУ فراز extra"` becomes `"ок"`. -/
theorem C5_contamination_truncation :
    (∀ (s : List Char) (i : Nat), contamSearch s = some i →
        clean_single_definition s = pyStrip (s.take i) ∧ ContamSpec (s.drop i) ∧
          ∀ m, m < i → ¬ ContamSpec (s.drop m)) ∧
      (∀ s : List Char, contamSearch s = none →
          clean_single_definition s = s ∧ ∀ m, ¬ ContamSpec (s.drop m)) ∧
      clean_single_definition "ок ПАРУ فراز extra".toList = "ок".toList ∧
      (∀ ds, clean_definitions ds = ds.map (fun p => (p.1, clean_single_definition p.2))) := by
  refine ⟨?_, ?_, by decide, fun ds => rfl⟩
  · intro s i h
    have hs := contamSearchF_zero (s.length + 1) s (by omega)
    obtain ⟨h1, h2⟩ := hs.1 i h
    refine ⟨by simp [clean_single_definition, h], (contamMatchAt_iff _).mp h1, ?_⟩
    intro m hm hc
    have h3 := h2 m hm
    rw [(contamMatchAt_iff _).mpr hc] at h3
    cases h3
  · intro s h
    have hs := contamSearchF_zero (s.length + 1) s (by omega)
    refine ⟨by simp [clean_single_definition, h], ?_⟩
    intro m hc
    have h3 := hs.2 h m
    rw [(contamMatchAt_iff _).mpr hc] at h3
    cases h3

/-- Witness for C5: on `"ок ПАРУ فراز extra"` the search returns
position 3, the text is truncated there and trimmed, and the signature
is indeed present at that position. -/
theorem C5_witness :
    clean_single_definition "ок ПАРУ فراز extra".toList =
        pyStrip ("ок ПАРУ فراز extra".toList.take 3) ∧
      ContamSpec ("ок ПАРУ فراز extra".toList.drop 3) :=
  ⟨(C5_contamination_truncation.1 "ок ПАРУ فراز extra".toList 3 (by decide)).1,
   (C5_contamination_truncation.1 "ок ПАРУ فراز extra".toList 3 (by decide)).2.1⟩

/-- Characters of a stripped text come from the text. -/
theorem pyStrip_subset {c : Char} {s : List Char} (h : c ∈ pyStrip s) : c ∈ s := by
  simp only [pyStrip, List.mem_reverse] at h
  have h1 := (List.dropWhile_sublist (p := isSpaceC)).subset h
  rw [List.mem_reverse] at h1
  exact (List.dropWhile_sublist (p := isSpaceC)).subset h1

/-- Unfolding of the collapse scan on a whitespace head. -/
theorem collapseWsF_cons_ws {a : Char} {t : List Char} (ha : isSpaceC a = true) (m : Nat) :
    collapseWsF (m + 1) (a :: t) = ' ' :: collapseWsF m (t.dropWhile isSpaceC) := by
  simp [collapseWsF, ha]

/-- Unfolding of the collapse scan on a non-whitespace head. -/
theorem collapseWsF_cons_nws {a : Char} {t : List Char} (ha : isSpaceC a = false) (m : Nat) :
    collapseWsF (m + 1) (a :: t) = a :: collapseWsF m t := by
  simp [collapseWsF, ha]

/-- Characters of a whitespace-collapsed text are spaces or come from
the text (fuelled form). -/
theorem collapseWsF_mem :
    ∀ (n : Nat) (s : List Char) (c : Char), c ∈ collapseWsF n s → c = ' ' ∨ c ∈ s := by
  intro n
  induction n with
  | zero => intro s c h; simp [collapseWsF] at h
  | succ m ih =>
    intro s c h
    cases s with
    | nil => simp [collapseWsF] at h
    | cons a t =>
      by_cases ha : isSpaceC a = true
      · rw [collapseWsF_cons_ws ha] at h
        rcases List.mem_cons.mp h with h1 | h2
        · exact Or.inl h1
        · rcases ih _ c h2 with h3 | h4
          · exact Or.inl h3
          · exact Or.inr
              (List.mem_cons_of_mem a ((List.dropWhile_sublist (p := isSpaceC)).subset h4))
      · rw [collapseWsF_cons_nws (Bool.of_not_eq_true ha)] at h
        rcases List.mem_cons.mp h with h1 | h2
        · exact Or.inr (by simp [h1])
        · rcases ih t c h2 with h3 | h4
          · exact Or.inl h3
          · exact Or.inr (by simp [h4])

/-- The lazy capture of the numbered-definition pattern contains no
ASCII digit. -/
theorem growT_digit_free :
    ∀ (rem acc t r : List Char), growT acc rem = some (t, r) →
      (∀ c ∈ acc, isDigitC c = false) → ∀ c ∈ t, isDigitC c = false := by
  intro rem
  induction rem with
  | nil => intro acc t r h; cases h
  | cons c0 r0 ih =>
    intro acc t r h hacc
    rw [growT] at h
    by_cases hd : isDigitC c0 = true
    · rw [if_pos hd] at h; cases h
    · rw [if_neg hd] at h
      by_cases hla : laTest r0 = true
      · rw [if_pos hla] at h
        injection h with h1
        cases h1
        intro c hc
        rcases List.mem_append.mp hc with h4 | h5
        · exact hacc c h4
        · rw [List.mem_singleton.mp h5]
          exact Bool.of_not_eq_true hd
      · rw [if_neg hla] at h
        exact ih (acc ++ [c0]) t r h (by
          intro c hc
          rcases List.mem_append.mp hc with h4 | h5
          · exact hacc c h4
          · rw [List.mem_singleton.mp h5]
            exact Bool.of_not_eq_true hd)

/-- The whitespace-backtracking wrapper also captures digit-free text. -/
theorem tryWs_digit_free :
    ∀ (k : Nat) (rest1 t r : List Char), tryWs k rest1 = some (t, r) →
      ∀ c ∈ t, isDigitC c = false := by
  intro k
  induction k with
  | zero => intro rest1 t r h; cases h
  | succ m ih =>
    intro rest1 t r h
    rw [tryWs] at h
    cases hg : growT [] (rest1.drop (m + 1)) with
    | some p =>
      rw [hg] at h
      injection h with h1
      cases h1
      exact growT_digit_free _ [] t r hg (by intro c hc; cases hc)
    | none =>
      rw [hg] at h
      exact ih rest1 t r h

/-- A successful anchored match of the numbered pattern captures
digit-free text. -/
theorem matchNumAt_digit_free {s : List Char} {num : Nat} {t r : List Char}
    (h : matchNumAt s = some (num, t, r)) : ∀ c ∈ t, isDigitC c = false := by
  unfold matchNumAt at h
  split at h
  · cases h
  · split at h
    · split at h
      · cases h
      · split at h
        · rename_i p hp
          injection h with h1
          have ht : p.1 = t := congrArg (fun q => q.2.1) h1
          rw [← ht]
          exact tryWs_digit_free _ _ p.1 p.2 hp
        · cases h
    · cases h

/-- The numbered scan on empty text yields nothing. -/
theorem findNumberedF_nil (n : Nat) : findNumberedF n [] = [] := by
  cases n <;> rfl

/-- Unfolding of the numbered scan on a cons cell. -/
theorem findNumberedF_cons (n : Nat) (c : Char) (t : List Char) :
    findNumberedF (n + 1) (c :: t) =
      (match matchNumAt (c :: t) with
       | some q => (q.1, q.2.1) :: findNumberedF n q.2.2
       | none => findNumberedF n t) := rfl

/-- Every definition text found by the numbered scan is digit-free. -/
theorem findNumberedF_digit_free :
    ∀ (n : Nat) (s : List Char) (p : Nat × List Char), p ∈ findNumberedF n s →
      ∀ c ∈ p.2, isDigitC c = false := by
  intro n
  induction n with
  | zero => intro s p hp; cases s <;> cases hp
  | succ m ih =>
    intro s p hp
    cases s with
    | nil => cases hp
    | cons a t =>
      rw [findNumberedF_cons] at hp
      cases hq : matchNumAt (a :: t) with
      | some q =>
        rw [hq] at hp
        rcases List.mem_cons.mp hp with h1 | h2
        · intro c hc
          rw [h1] at hc
          exact matchNumAt_digit_free hq c hc
        · exact ih q.2.2 p h2
      | none =>
        rw [hq] at hp
        exact ih t p hp

/-- Every definition text of `_parse_definitions` is digit-free. -/
theorem parse_definitions_digit_free (text : List Char) (p : Nat × List Char)
    (hp : p ∈ parse_definitions text) : ∀ c ∈ p.2, isDigitC c = false := by
  simp only [parse_definitions, List.mem_map] at hp
  obtain ⟨q, hq, rfl⟩ := hp
  intro c hc
  rcases collapseWsF_mem _ _ c hc with h1 | h2
  · rw [h1]; decide
  · exact findNumberedF_digit_free _ text q hq c (pyStrip_subset h2)

/-- Truncation only keeps characters of the original text. -/
theorem clean_single_definition_subset {c : Char} {s : List Char}
    (h : c ∈ clean_single_definition s) : c ∈ s := by
  unfold clean_single_definition at h
  cases hcs : contamSearch s with
  | some i =>
    rw [hcs] at h
    exact List.take_subset i s (pyStrip_subset h)
  | none =>
    rw [hcs] at h
    exact h

/-- Members of the cleaned definition list come from the parsed list
with the truncation applied. -/
theorem clean_definitions_mem {p : Nat × List Char} {ds : List (Nat × List Char)}
    (h : p ∈ clean_definitions ds) : ∃ q ∈ ds, (q.1, clean_single_definition q.2) = p := by
  simpa [clean_definitions, List.mem_map] using h

/-- Shape of the rows `_process_entry` produces: either one row per
cleaned numbered definition, all of whose texts are digit-free, or a
single unnumbered row. -/
theorem process_entry_shape (hl d : List Char) (rows : List Row)
    (hpe : process_entry hl d = some rows) :
    (∃ (hw : List Char) (ar lm rg : Option (List Char)) (defs : List (Nat × List Char)),
        rows = defs.map (fun p =>
          { headword := hw, arabic := ar, language_marker := lm, register := rg,
            definition_number := some p.1, definition := pyStrip p.2 }) ∧
          ∀ p ∈ defs, ∀ c ∈ p.2, isDigitC c = false) ∨
      (∃ (hw : List Char) (ar lm rg : Option (List Char)) (dd : List Char),
          rows = [{ headword := hw, arabic := ar, language_marker := lm,
                    register := rg, definition_number := none, definition := dd }]) := by
  unfold process_entry at hpe
  cases hh : headword_match hl with
  | none => rw [hh] at hpe; cases hpe
  | some he =>
    rw [hh] at hpe
    simp only [] at hpe
    split at hpe
    · left
      injection hpe with h1
      subst h1
      refine ⟨_, _, _, _, _, rfl, ?_⟩
      intro p hp
      obtain ⟨q, hq, hqp⟩ := clean_definitions_mem hp
      intro c hc
      rw [← hqp] at hc
      exact parse_definitions_digit_free _ q hq c (clean_single_definition_subset hc)
    · right
      injection hpe with h1
      subst h1
      exact ⟨_, _, _, _, _, rfl⟩

/-- C10: for every parsed entry, every sense that carries a sense number
has definition text containing no ASCII decimal digit: the
numbered-definition matcher captures only digit-free text, and the
subsequent collapsing, stripping and contamination truncation only keep
characters of that capture (or insert spaces). -/
theorem C10_numbered_digit_free
    (header definition_text : List Char) (rows : List Row) (r : Row) (num : Nat)
    (hpe : process_entry header definition_text = some rows) (hr : r ∈ rows)
    (hn : r.definition_number = some num) : ∀ c ∈ r.definition, isDigitC c = false := by
  rcases process_entry_shape header definition_text rows hpe with
    ⟨hw, ar, lm, rg, defs, rfl, hfree⟩ | ⟨hw, ar, lm, rg, dd, rfl⟩
  · rw [List.mem_map] at hr
    obtain ⟨p, hp, rfl⟩ := hr
    intro c hc
    exact hfree p hp c (pyStrip_subset hc)
  · rw [List.mem_singleton] at hr
    rw [hr] at hn
    cases hn

/-- Witness for C10: the first row of a concrete two-sense entry is
numbered, and the theorem shows its text has no digit; checked on the
letter `ф`. -/
theorem C10_witness : isDigitC 'ф' = false :=
  C10_numbered_digit_free "АБ 1. ф 2. х".toList "".toList
    (process_entry "АБ 1. ф 2. х".toList "".toList).toList.flatten
    { headword := "АБ".toList, arabic := none, language_marker := none, register := none,
      definition_number := some 1, definition := "ф".toList } 1
    (by decide) (by decide) (by decide) 'ф' (by decide)

set_option maxRecDepth 4000 in
/-- Every entry of either character map has the key and value shapes
used by the idempotence argument. -/
theorem pairs_shapes :
    ∀ kv ∈ TAJIK_CYRILLIC_MAP ++ ARABIC_PRESENTATION_FORMS,
      KeyShape kv.1 ∧ ValShape kv.2 := by
  simp only [KeyShape, ValShape]
  decide

/-- Out of fuel, the replacement scan returns the empty text. -/
theorem replaceAllF_zero (k v : List Char) (s : List Char) : replaceAllF k v 0 s = [] := by
  cases s <;> rfl

/-- The replacement scan of the empty text. -/
theorem replaceAllF_nil (k v : List Char) (n : Nat) : replaceAllF k v n [] = [] := by
  cases n <;> rfl

/-- Unfolding of the replacement scan on a cons cell. -/
theorem replaceAllF_cons (k v : List Char) (n : Nat) (c : Char) (t : List Char) :
    replaceAllF k v (n + 1) (c :: t) =
      if k ≠ [] ∧ k.isPrefixOf (c :: t) then v ++ replaceAllF k v n (t.drop (k.length - 1))
      else c :: replaceAllF k v n t := rfl

/-- A prefix of an appended pair decomposes: it lies in the left part or
extends it. -/
theorem pfx_append_cases :
    ∀ (a : List Char) (b k : List Char), k <+: a ++ b →
      k <+: a ∨ ∃ k2, k = a ++ k2 ∧ k2 <+: b := by
  intro a
  induction a with
  | nil =>
    intro b k h
    exact Or.inr ⟨k, by simp, by simpa using h⟩
  | cons c a ih =>
    intro b k h
    cases k with
    | nil => exact Or.inl ⟨c :: a, by simp⟩
    | cons ck tk =>
      obtain ⟨q, hq⟩ := h
      rw [List.cons_append] at hq
      injection hq with h1 h2
      subst h1
      rcases ih b tk ⟨q, h2⟩ with h3 | ⟨k2, h4, h5⟩
      · left
        obtain ⟨q', hq'⟩ := h3
        exact ⟨q', by rw [List.cons_append, hq']⟩
      · right
        exact ⟨k2, by rw [h4, List.cons_append], h5⟩

/-- An infix of an appended pair lies in the left part, lies in the
right part, or spans the boundary with a nonempty piece on each side. -/
theorem ifx_append_cases :
    ∀ (a b k : List Char), k <:+: a ++ b →
      k <:+: a ∨ k <:+: b ∨
        ∃ k1 k2, k = k1 ++ k2 ∧ k1 ≠ [] ∧ k2 ≠ [] ∧ k1 <:+ a ∧ k2 <+: b := by
  intro a
  induction a with
  | nil =>
    intro b k h
    exact Or.inr (Or.inl (by simpa using h))
  | cons c a ih =>
    intro b k h
    obtain ⟨p, q, hpq⟩ := h
    cases p with
    | nil =>
      simp only [List.nil_append] at hpq
      have hk : k <+: (c :: a) ++ b := ⟨q, by rw [hpq, List.cons_append]⟩
      rcases pfx_append_cases (c :: a) b k hk with h1 | ⟨k2, h2, h3⟩
      · exact Or.inl h1.isInfix
      · by_cases hk2 : k2 = []
        · subst hk2
          rw [List.append_nil] at h2
          exact Or.inl (h2 ▸ List.infix_rfl)
        · exact Or.inr (Or.inr ⟨c :: a, k2, h2, by simp, hk2, List.suffix_rfl, h3⟩)
    | cons cp tp =>
      rw [List.cons_append] at hpq
      injection hpq with h1 h2
      rcases ih b k ⟨tp, q, h2⟩ with h3 | h4 | ⟨k1, k2, h5, h6, h7, h8, h9⟩
      · have h3' : k <:+: c :: a := List.infix_cons h3
        exact Or.inl h3'
      · exact Or.inr (Or.inl h4)
      · have h8' : k1 <:+ c :: a := h8.trans (List.suffix_cons c a)
        exact Or.inr (Or.inr ⟨k1, k2, h5, h6, h7, h8', h9⟩)

/-- A key shape forces a nonempty list starting with a key-initial
character. -/
theorem KeyShape.dest_key {k : List Char} (h : KeyShape k) :
    ∃ ck tk, k = ck :: tk ∧ isKI ck = true ∧ ∀ c ∈ k, isVI c = false := by
  obtain ⟨h1, h2⟩ := h
  cases k with
  | nil => cases h1
  | cons ck tk => exact ⟨ck, tk, rfl, h1, h2⟩

/-- A value shape forces a nonempty list starting with a value-initial
character. -/
theorem ValShape.dest_val {v : List Char} (h : ValShape v) :
    ∃ cv tv, v = cv :: tv ∧ isVI cv = true ∧ ∀ c ∈ v, isKI c = false := by
  obtain ⟨h1, h2⟩ := h
  cases v with
  | nil => cases h1
  | cons cv tv => exact ⟨cv, tv, rfl, h1, h2⟩

/-- Nothing with a key shape is an infix of the empty text. -/
theorem KeyShape.not_infix_nil {k : List Char} (h : KeyShape k) : ¬ k <:+: ([] : List Char) := by
  intro hocc
  obtain ⟨ck, tk, rfl, _, _⟩ := h.dest_key
  obtain ⟨p, q, hpq⟩ := hocc
  cases p <;> cases hpq

/-- The head of a nonempty infix is a member of the host list. -/
theorem head_mem_of_ifx {ck : Char} {tk v : List Char} (h : (ck :: tk) <:+: v) : ck ∈ v := by
  obtain ⟨p, q, hpq⟩ := h
  rw [← hpq]
  simp

/-- A prefix of the replacement output whose characters avoid the
value-initial class is a prefix of the input. -/
theorem pfx_replaceAllF (j v : List Char) (hv : ValShape v) :
    ∀ (n : Nat) (t w : List Char), (∀ c ∈ w, isVI c = false) →
      w <+: replaceAllF j v n t → w <+: t := by
  intro n
  induction n with
  | zero =>
    intro t w _ h
    rw [replaceAllF_zero] at h
    rw [List.prefix_nil.mp h]
    exact List.nil_prefix
  | succ n ih =>
    intro t w hw h
    cases t with
    | nil =>
      rw [replaceAllF_nil] at h
      rw [List.prefix_nil.mp h]
    | cons c t' =>
      rw [replaceAllF_cons] at h
      by_cases hcond : j ≠ [] ∧ j.isPrefixOf (c :: t')
      · rw [if_pos hcond] at h
        cases w with
        | nil => exact List.nil_prefix
        | cons cw tw =>
          obtain ⟨cv, tv, rfl, hcv, _⟩ := hv.dest_val
          obtain ⟨q, hq⟩ := h
          rw [List.cons_append, List.cons_append] at hq
          injection hq with h1 _
          rw [← h1] at hcv
          rw [hw cw (by simp)] at hcv
          cases hcv
      · rw [if_neg hcond] at h
        cases w with
        | nil => exact List.nil_prefix
        | cons cw tw =>
          obtain ⟨q, hq⟩ := h
          rw [List.cons_append] at hq
          injection hq with h1 h2
          subst h1
          have h3 : tw <+: replaceAllF j v n t' := ⟨q, h2⟩
          have h4 := ih t' tw (fun c hc => hw c (by simp [hc])) h3
          obtain ⟨r, hr⟩ := h4
          exact ⟨r, by rw [List.cons_append, hr]⟩

/-- Replacement of a key never creates an occurrence of any key: the
output contains no occurrence of the replaced key, and no occurrence of
any other key that the input did not already contain. -/
theorem no_occur_replaceAllF (j v k : List Char) (hj : KeyShape j) (hv : ValShape v)
    (hk : KeyShape k) :
    ∀ (n : Nat) (s : List Char), s.length < n → (k = j ∨ ¬ k <:+: s) →
      ¬ k <:+: replaceAllF j v n s := by
  intro n
  induction n with
  | zero => intro s h; omega
  | succ n ih =>
    intro s hlen hpre hocc
    cases s with
    | nil =>
      rw [replaceAllF_nil] at hocc
      exact hk.not_infix_nil hocc
    | cons c t =>
      obtain ⟨ck, tk, hkck, hki, hkVI⟩ := hk.dest_key
      rw [replaceAllF_cons] at hocc
      by_cases hcond : j ≠ [] ∧ j.isPrefixOf (c :: t)
      · rw [if_pos hcond] at hocc
        rcases ifx_append_cases v _ k hocc with h1 | h2 | ⟨k1, k2, hk12, hk1ne, _, hk1sfx, _⟩
        · rw [hkck] at h1
          have := hv.2 ck (head_mem_of_ifx h1)
          rw [hki] at this
          cases this
        · have hdlen : (t.drop (j.length - 1)).length < n := by
            have := List.length_drop (j.length - 1) t
            simp only [List.length_cons] at hlen
            omega
          apply ih (t.drop (j.length - 1)) hdlen ?_ h2
          rcases hpre with h3 | h3
          · exact Or.inl h3
          · refine Or.inr fun h4 => h3 ?_
            have h5 : t.drop (j.length - 1) <:+ t := List.drop_suffix _ t
            exact List.infix_cons (h4.trans h5.isInfix)
        · obtain ⟨c1, t1, rfl⟩ : ∃ c1 t1, k1 = c1 :: t1 := by
            cases k1 with
            | nil => exact absurd rfl hk1ne
            | cons c1 t1 => exact ⟨c1, t1, rfl⟩
          rw [hkck, List.cons_append] at hk12
          injection hk12 with h5 _
          have h6 := hv.2 ck (by rw [h5]; exact hk1sfx.subset (by simp))
          rw [hki] at h6
          cases h6
      · rw [if_neg hcond] at hocc
        obtain ⟨p, q, hpq⟩ := hocc
        cases p with
        | nil =>
          rw [List.nil_append, hkck, List.cons_append] at hpq
          injection hpq with h1 h2
          have h3 : tk <+: replaceAllF j v n t := ⟨q, h2⟩
          have h4 := pfx_replaceAllF j v hv n t tk (fun c hc => hkVI c (by simp [hkck, hc])) h3
          obtain ⟨r, hr⟩ := h4
          have h5 : k <+: c :: t := ⟨r, by rw [hkck, ← h1, List.cons_append, hr]⟩
          rcases hpre with h6 | h6
          · rw [h6] at h5
            obtain ⟨hj1, _⟩ := hj
            have hjne : j ≠ [] := by
              intro hx
              rw [hx] at hj1
              simp [startsKI] at hj1
            exact hcond ⟨hjne, List.isPrefixOf_iff_prefix.mpr h5⟩
          · exact h6 h5.isInfix
        | cons cp tp =>
          rw [List.cons_append] at hpq
          injection hpq with _ h2
          have h3 : k <:+: replaceAllF j v n t := ⟨tp, q, h2⟩
          apply ih t (by simp only [List.length_cons] at hlen; omega) ?_ h3
          rcases hpre with h4 | h4
          · exact Or.inl h4
          · exact Or.inr fun h5 => h4 (List.infix_cons h5)

/-- Replacing a key that does not occur leaves the text unchanged
(fuelled form). -/
theorem replaceAllF_id (j v : List Char) :
    ∀ (n : Nat) (s : List Char), s.length < n → ¬ j <:+: s → replaceAllF j v n s = s := by
  intro n
  induction n with
  | zero => intro s h; omega
  | succ n ih =>
    intro s hlen hocc
    cases s with
    | nil => exact replaceAllF_nil j v (n + 1)
    | cons c t =>
      rw [replaceAllF_cons]
      rw [if_neg ?_]
      · rw [ih t (by simp only [List.length_cons] at hlen; omega)
          (fun h => hocc (List.infix_cons h))]
      · rintro ⟨_, hpre⟩
        exact hocc (List.isPrefixOf_iff_prefix.mp hpre).isInfix

/-- After the fold over a map whose entries all have the key and value
shapes, no key of the map occurs in the result; a key that did not occur
before the fold still does not occur. -/
theorem applyMap_no_keys :
    ∀ (l : List (List Char × List Char)) (s k vk : List Char),
      (∀ kv ∈ l, KeyShape kv.1 ∧ ValShape kv.2) → KeyShape k →
      ((k, vk) ∈ l ∨ ¬ k <:+: s) → ¬ k <:+: applyMap l s := by
  intro l
  induction l with
  | nil =>
    intro s k vk _ _ hpre
    rcases hpre with h | h
    · cases h
    · exact h
  | cons jv rest ih =>
    intro s k vk hshapes hk hpre
    obtain ⟨hjs, hvs⟩ := hshapes jv (by simp)
    have hstep : ∀ pre : (k = jv.1 ∨ ¬ k <:+: s), ¬ k <:+: replaceAll jv.1 jv.2 s :=
      fun pre => no_occur_replaceAllF jv.1 jv.2 k hjs hvs hk (s.length + 1) s (by omega) pre
    have hnext : (k, vk) ∈ rest ∨ ¬ k <:+: replaceAll jv.1 jv.2 s := by
      rcases hpre with h | h
      · rcases List.mem_cons.mp h with h1 | h2
        · refine Or.inr (hstep (Or.inl ?_))
          exact congrArg Prod.fst h1
        · exact Or.inl h2
      · exact Or.inr (hstep (Or.inr h))
    have : applyMap (jv :: rest) s = applyMap rest (replaceAll jv.1 jv.2 s) := rfl
    rw [this]
    exact ih (replaceAll jv.1 jv.2 s) k vk (fun kv hkv => hshapes kv (by simp [hkv])) hk hnext

/-- Folding a map none of whose keys occurs leaves the text unchanged. -/
theorem applyMap_id :
    ∀ (l : List (List Char × List Char)) (s : List Char),
      (∀ kv ∈ l, ¬ kv.1 <:+: s) → applyMap l s = s := by
  intro l
  induction l with
  | nil => intro s _; rfl
  | cons jv rest ih =>
    intro s hocc
    have h1 : replaceAll jv.1 jv.2 s = s :=
      replaceAllF_id jv.1 jv.2 (s.length + 1) s (by omega) (hocc jv (by simp))
    have h2 : applyMap (jv :: rest) s = applyMap rest (replaceAll jv.1 jv.2 s) := rfl
    rw [h2, h1]
    exact ih s (fun kv hkv => hocc kv (by simp [hkv]))

/-- C8: the codepoint normalizer is idempotent.  One pass (the Cyrillic
homoglyph substitutions followed by the Arabic presentation-form
substitutions, each entry replacing every occurrence of its malformed
key) removes every occurrence of every malformed key and never creates a
new one — every key begins with one of the three key-initial characters
and contains no value-initial character, while every replacement value
begins with a value-initial character and contains no key-initial
character, so no replacement can complete or contain a key.  Hence a
second pass finds nothing to replace and returns its input unchanged. -/
theorem C8_normalizer_idempotent (s : List Char) :
    clean_arabic_script (clean_tajik_cyrillic (clean_arabic_script (clean_tajik_cyrillic s))) =
        clean_arabic_script (clean_tajik_cyrillic s) ∧
      ∀ kv ∈ TAJIK_CYRILLIC_MAP ++ ARABIC_PRESENTATION_FORMS,
        ¬ kv.1 <:+: clean_arabic_script (clean_tajik_cyrillic s) := by
  have hcomp : ∀ t : List Char,
      clean_arabic_script (clean_tajik_cyrillic t) =
        applyMap (TAJIK_CYRILLIC_MAP ++ ARABIC_PRESENTATION_FORMS) t := by
    intro t
    simp [clean_arabic_script, clean_tajik_cyrillic, applyMap, List.foldl_append]
  have hnokeys : ∀ kv ∈ TAJIK_CYRILLIC_MAP ++ ARABIC_PRESENTATION_FORMS,
      ¬ kv.1 <:+: applyMap (TAJIK_CYRILLIC_MAP ++ ARABIC_PRESENTATION_FORMS) s := by
    intro kv hkv
    exact applyMap_no_keys _ s kv.1 kv.2 pairs_shapes (pairs_shapes kv hkv).1 (Or.inl hkv)
  constructor
  · rw [hcomp s, hcomp (applyMap (TAJIK_CYRILLIC_MAP ++ ARABIC_PRESENTATION_FORMS) s)]
    exact applyMap_id _ _ hnokeys
  · intro kv hkv
    rw [hcomp s]
    exact hnokeys kv hkv

/-- Witness for C8: the first malformed Cyrillic key no longer occurs
after normalizing a text that consisted of exactly that key. -/
theorem C8_witness :
    ¬ [ch 0x011E, ch 0x2030] <:+:
        clean_arabic_script (clean_tajik_cyrillic [ch 0x011E, ch 0x2030]) :=
  (C8_normalizer_idempotent [ch 0x011E, ch 0x2030]).2
    ([ch 0x011E, ch 0x2030], [ch 0x00D2, ch 0x00B6]) (by decide)

/-- The Arabic-run reversal scan of the empty text. -/
theorem reverse_arabic_textF_nil (n : Nat) : reverse_arabic_textF n [] = [] := by
  cases n <;> rfl

/-- Unfolding of the Arabic-run reversal scan on an Arabic head. -/
theorem reverse_arabic_textF_cons_ar {c : Char} {t : List Char} (hc : isArabicC c = true)
    (n : Nat) :
    reverse_arabic_textF (n + 1) (c :: t) =
      ((c :: t).takeWhile isArabicC).reverse ++
        reverse_arabic_textF n ((c :: t).dropWhile isArabicC) := by
  simp [reverse_arabic_textF, hc]

/-- Unfolding of the Arabic-run reversal scan on a non-Arabic head. -/
theorem reverse_arabic_textF_cons_no {c : Char} {t : List Char} (hc : isArabicC c = false)
    (n : Nat) :
    reverse_arabic_textF (n + 1) (c :: t) = c :: reverse_arabic_textF n t := by
  simp [reverse_arabic_textF, hc]

/-- With sufficient fuel the Arabic-run reversal scan does not depend on
the fuel. -/
theorem reverse_arabic_textF_fuel :
    ∀ (n : Nat) (s : List Char), s.length < n →
      reverse_arabic_textF n s = reverse_arabic_text s := by
  intro n
  induction n using Nat.strong_induction_on with
  | _ n ih =>
    intro s hlen
    cases n with
    | zero => omega
    | succ m =>
      cases s with
      | nil => rw [reverse_arabic_textF_nil, reverse_arabic_text, reverse_arabic_textF_nil]
      | cons c t =>
        simp only [List.length_cons] at hlen
        by_cases hc : isArabicC c = true
        · rw [reverse_arabic_textF_cons_ar hc, reverse_arabic_text,
            List.length_cons, reverse_arabic_textF_cons_ar hc]
          congr 1
          have hd : ((c :: t).dropWhile isArabicC).length < t.length + 1 := by
            rw [List.dropWhile_cons, if_pos hc]
            have := (List.dropWhile_sublist (p := isArabicC) (l := t)).length_le
            omega
          have h1 := ih m (by omega) ((c :: t).dropWhile isArabicC) (by omega)
          have h2 := ih (t.length + 1) (by omega) ((c :: t).dropWhile isArabicC) hd
          rw [h1, h2]
        · have hc' : isArabicC c = false := Bool.of_not_eq_true hc
          rw [reverse_arabic_textF_cons_no hc', reverse_arabic_text, List.length_cons,
            reverse_arabic_textF_cons_no hc']
          congr 1
          have h1 := ih m (by omega) t (by omega)
          have h2 := ih (t.length + 1) (by omega) t (by omega)
          rw [h1, h2]

/-- A text without Arabic-block characters is unchanged by the
reversal pass. -/
theorem reverse_arabic_text_id (s : List Char) (h : ∀ c ∈ s, isArabicC c = false) :
    reverse_arabic_text s = s := by
  suffices hF : ∀ (n : Nat) (s : List Char), s.length < n →
      (∀ c ∈ s, isArabicC c = false) → reverse_arabic_textF n s = s by
    exact hF (s.length + 1) s (by omega) h
  intro n
  induction n with
  | zero => intro s h1; omega
  | succ m ih =>
    intro s hlen hno
    cases s with
    | nil => exact reverse_arabic_textF_nil _
    | cons c t =>
      rw [reverse_arabic_textF_cons_no (hno c (by simp))]
      rw [ih t (by simp only [List.length_cons] at hlen; omega) (fun c hc => hno c (by simp [hc]))]

/-- `dropWhile` removes exactly a left factor all of whose elements
satisfy the predicate when the right factor is empty or starts by
failing it. -/
theorem dropWhile_left_all {p : Char → Bool} :
    ∀ (a b : List Char), (∀ c ∈ a, p c = true) →
      (∀ c t, b = c :: t → p c = false) →
      (a ++ b).dropWhile p = b := by
  intro a
  induction a with
  | nil =>
    intro b _ hb
    cases b with
    | nil => rfl
    | cons c t => simp [List.dropWhile_cons, hb c t rfl]
  | cons x a ih =>
    intro b ha hb
    rw [List.cons_append, List.dropWhile_cons, if_pos (by simp [ha x (by simp)])]
    exact ih b (fun c hc => ha c (by simp [hc])) hb

/-- `takeWhile` stops inside the left factor when the left factor
contains an element failing the predicate. -/
theorem takeWhile_append_of_break {p : Char → Bool} :
    ∀ (a z : List Char), (∃ c ∈ a, p c = false) → (a ++ z).takeWhile p = a.takeWhile p := by
  intro a
  induction a with
  | nil => intro z h; simp at h
  | cons x a ih =>
    intro z h
    by_cases hx : p x = true
    · rw [List.cons_append, List.takeWhile_cons, if_pos hx, List.takeWhile_cons, if_pos hx]
      obtain ⟨c, hc, hcp⟩ := h
      rcases List.mem_cons.mp hc with h1 | h2
      · rw [h1] at hcp; rw [hcp] at hx; cases hx
      · rw [ih z ⟨c, h2, hcp⟩]
    · have hx' : p x = false := Bool.of_not_eq_true hx
      rw [List.cons_append, List.takeWhile_cons, if_neg (by simp [hx']),
        List.takeWhile_cons, if_neg (by simp [hx'])]

/-- `dropWhile` keeps the right factor intact when the left factor
contains an element failing the predicate. -/
theorem dropWhile_append_of_break {p : Char → Bool} :
    ∀ (a z : List Char), (∃ c ∈ a, p c = false) → (a ++ z).dropWhile p = a.dropWhile p ++ z := by
  intro a
  induction a with
  | nil => intro z h; simp at h
  | cons x a ih =>
    intro z h
    by_cases hx : p x = true
    · rw [List.cons_append, List.dropWhile_cons, if_pos (by simp [hx]),
        List.dropWhile_cons, if_pos (by simp [hx])]
      obtain ⟨c, hc, hcp⟩ := h
      rcases List.mem_cons.mp hc with h1 | h2
      · rw [h1] at hcp; rw [hcp] at hx; cases hx
      · exact ih z ⟨c, h2, hcp⟩
    · have hx' : p x = false := Bool.of_not_eq_true hx
      rw [List.cons_append, List.dropWhile_cons, if_neg (by simp [hx']),
        List.dropWhile_cons, if_neg (by simp [hx'])]
      rw [List.cons_append]

/-- A maximal Arabic run directly followed by a non-Arabic boundary (or
the end of text) reverses in place at the head of the scan. -/
theorem rat_run_head (r b : List Char) (hr : ∀ c ∈ r, isArabicC c = true)
    (hbh : ∀ c, b.head? = some c → isArabicC c = false) :
    reverse_arabic_text (r ++ b) = r.reverse ++ reverse_arabic_text b := by
  cases r with
  | nil => simp
  | cons cr tr =>
    have hbh' : ∀ c t, b = c :: t → isArabicC c = false := by
      intro c t h
      exact hbh c (by rw [h]; rfl)
    have htk : ((cr :: tr) ++ b).takeWhile isArabicC = cr :: tr :=
      takeWhile_left_all _ _ hr hbh'
    have hdw : ((cr :: tr) ++ b).dropWhile isArabicC = b :=
      dropWhile_left_all _ _ hr hbh'
    rw [reverse_arabic_text, List.cons_append,
      reverse_arabic_textF_cons_ar (hr cr (by simp)), ← List.cons_append, htk, hdw]
    congr 1
    apply reverse_arabic_textF_fuel
    simp only [List.length_cons, List.length_append]
    omega

/-- One scan step on a non-Arabic head. -/
theorem rat_cons_no {c : Char} {t : List Char} (hc : isArabicC c = false) :
    reverse_arabic_text (c :: t) = c :: reverse_arabic_text t := by
  rw [reverse_arabic_text, List.length_cons, reverse_arabic_textF_cons_no hc]
  rfl

/-- One scan step on an Arabic head: the maximal run is reversed and the
scan continues after it. -/
theorem rat_cons_ar {c : Char} {t : List Char} (hc : isArabicC c = true) :
    reverse_arabic_text (c :: t) =
      ((c :: t).takeWhile isArabicC).reverse ++
        reverse_arabic_text ((c :: t).dropWhile isArabicC) := by
  rw [reverse_arabic_text, List.length_cons, reverse_arabic_textF_cons_ar hc]
  congr 1
  apply reverse_arabic_textF_fuel
  rw [List.dropWhile_cons, if_pos hc]
  have := (List.dropWhile_sublist (p := isArabicC) (l := t)).length_le
  omega

/-- The Arabic-run reversal reverses every maximal Arabic run in place
and leaves the surrounding text to be processed independently: if `r` is
all Arabic and is bounded on the left by a text not ending in an Arabic
character and on the right by a text not starting with one, the pass
maps `a ++ r ++ b` to `(pass a) ++ reverse r ++ (pass b)` (fuelled
induction on the length of `a`). -/
theorem rat_decomp :
    ∀ (N : Nat) (a : List Char), a.length < N →
      ∀ (r b : List Char), (∀ c ∈ r, isArabicC c = true) →
        (∀ c, a.getLast? = some c → isArabicC c = false) →
        (∀ c, b.head? = some c → isArabicC c = false) →
        reverse_arabic_text (a ++ r ++ b) =
          reverse_arabic_text a ++ r.reverse ++ reverse_arabic_text b := by
  intro N
  induction N with
  | zero => intro a h; omega
  | succ M ih =>
    intro a hlen r b hr hlast hbh
    cases a with
    | nil =>
      rw [List.nil_append]
      rw [show reverse_arabic_text [] = [] from rfl, List.nil_append]
      exact rat_run_head r b hr hbh
    | cons ca ta =>
      simp only [List.length_cons] at hlen
      rw [List.append_assoc, List.cons_append]
      by_cases hca : isArabicC ca = true
      · have hane : (ca :: ta) ≠ [] := by simp
        have hbreak : ∃ c ∈ ca :: ta, isArabicC c = false := by
          refine ⟨(ca :: ta).getLast hane, List.getLast_mem hane, ?_⟩
          exact hlast _ (List.getLast?_eq_getLast_of_ne_nil hane)
        have htk := takeWhile_append_of_break (p := isArabicC) (ca :: ta) (r ++ b) hbreak
        have hdw := dropWhile_append_of_break (p := isArabicC) (ca :: ta) (r ++ b) hbreak
        rw [List.cons_append] at htk hdw
        have hdlen : ((ca :: ta).dropWhile isArabicC).length < M := by
          rw [List.dropWhile_cons, if_pos hca]
          have := (List.dropWhile_sublist (p := isArabicC) (l := ta)).length_le
          omega
        have hdlast : ∀ c, ((ca :: ta).dropWhile isArabicC).getLast? = some c →
            isArabicC c = false := by
          intro c hc
          cases hd : (ca :: ta).dropWhile isArabicC with
          | nil => rw [hd] at hc; cases hc
          | cons x y =>
            apply hlast
            conv_lhs => rw [← List.takeWhile_append_dropWhile (p := isArabicC) (l := ca :: ta)]
            rw [List.getLast?_append_of_ne_nil _ (by rw [hd]; simp)]
            exact hc
        have hih := ih ((ca :: ta).dropWhile isArabicC) hdlen r b hr hdlast hbh
        rw [rat_cons_ar hca, htk, hdw, ← List.append_assoc ((ca :: ta).dropWhile isArabicC) r b,
          hih, rat_cons_ar hca]
        simp [List.append_assoc]
      · have hca' : isArabicC ca = false := Bool.of_not_eq_true hca
        have htail : ∀ c, ta.getLast? = some c → isArabicC c = false := by
          intro c hc
          cases ta with
          | nil => cases hc
          | cons x y =>
            apply hlast
            rw [List.getLast?_cons_cons]
            exact hc
        have hih := ih ta (by omega) r b hr htail hbh
        rw [rat_cons_no hca', ← List.append_assoc ta r b, hih, rat_cons_no hca']
        simp [List.cons_append]

/-- C9: the character-level pass of the Directionality Corrector
reverses, character by character, every maximal contiguous run of
characters in the source RTL block (a run of Arabic-block characters
bounded by non-Arabic characters or the ends of the text), leaves every
character outside such runs unchanged and in place, and runs exactly
once over the whole document — after the codepoint normalization and
before any segmentation — inside `clean_dictionary_text`. -/
theorem C9_directionality :
    (∀ s : List Char, clean_dictionary_text s =
        reverse_arabic_text (clean_arabic_script (clean_tajik_cyrillic s))) ∧
      (∀ s : List Char, (∀ c ∈ s, isArabicC c = false) → reverse_arabic_text s = s) ∧
      ∀ (a r b : List Char), (∀ c ∈ r, isArabicC c = true) →
        (∀ c, a.getLast? = some c → isArabicC c = false) →
        (∀ c, b.head? = some c → isArabicC c = false) →
        reverse_arabic_text (a ++ r ++ b) =
          reverse_arabic_text a ++ r.reverse ++ reverse_arabic_text b := by
  refine ⟨fun s => rfl, reverse_arabic_text_id, ?_⟩
  intro a r b hr hlast hbh
  exact rat_decomp (a.length + 1) a (by omega) r b hr hlast hbh

/-- Witness for C9: a concrete maximal Arabic run between a Latin
letter and a space is reversed in place, and a purely non-Arabic text is
left unchanged. -/
theorem C9_witness :
    reverse_arabic_text ("x".toList ++ "اب".toList ++ " y".toList) =
        reverse_arabic_text "x".toList ++ "اب".toList.reverse ++ reverse_arabic_text " y".toList ∧
      reverse_arabic_text "lorem".toList = "lorem".toList :=
  ⟨C9_directionality.2.2 "x".toList "اب".toList " y".toList (by decide) (by decide) (by decide),
   C9_directionality.2.1 "lorem".toList (by decide)⟩

/-- A whitespace character is not in the marker-continuation class. -/
theorem space_not_langC {c : Char} (h : isSpaceC c = true) : isLangC c = false := by
  simp only [isSpaceC, Bool.or_eq_true, decide_eq_true_eq] at h
  rcases h with ((((h | h) | h) | h) | h) | h <;> subst h <;> decide

/-- The marker-shape test of the validation lookahead holds exactly when
the window begins with a lowercase letter followed by at most six
marker-class characters and then whitespace. -/
theorem has_marker_iff (w : List Char) :
    has_marker w = true ↔
      ∃ c0 rest, w = c0 :: rest ∧ isCyrL c0 = true ∧
        ∃ n, n ≤ 6 ∧ (rest.take n).all isLangC = true ∧
          startsWithWs (rest.drop n) = true := by
  constructor
  · intro h
    cases w with
    | nil => cases h
    | cons c t =>
      simp only [has_marker, Bool.and_eq_true, decide_eq_true_eq] at h
      obtain ⟨⟨hc, hlen⟩, hws⟩ := h
      refine ⟨c, t, rfl, hc, (t.takeWhile isLangC).length, hlen, ?_, ?_⟩
      · rw [← List.prefix_iff_eq_take.mp (List.takeWhile_prefix _)]
        rw [List.all_eq_true]
        intro c' hc'
        exact List.mem_takeWhile_imp hc'
      · exact hws
  · rintro ⟨c0, rest, rfl, hc0, n, hn, htake, hdrop⟩
    have hne : rest.drop n ≠ [] := by
      intro hnil
      rw [hnil] at hdrop
      cases hdrop
    have hnle : n ≤ rest.length := by
      by_contra hlt
      exact hne (List.drop_eq_nil_iff.mpr (by omega))
    have htw : rest.takeWhile isLangC = rest.take n := by
      conv_lhs => rw [← List.take_append_drop n rest]
      apply takeWhile_left_all
      · intro c hc
        exact List.all_eq_true.mp htake c hc
      · intro c t h
        rw [h] at hdrop
        exact space_not_langC (by simpa [startsWithWs] using hdrop)
    simp only [has_marker, Bool.and_eq_true, decide_eq_true_eq]
    refine ⟨⟨hc0, ?_⟩, ?_⟩
    · rw [htw, List.length_take]
      omega
    · rw [htw, List.length_take, min_eq_left hnle]
      exact hdrop

/-- C3, amended: a line matching the headword pattern is accepted as an
entry boundary exactly when the 100-character window after the match
contains an Arabic-block character, or begins with a lowercase letter
followed by at most six characters that are lowercase letters, periods
or hyphens, and then whitespace (no period is required after the
token, and the marker shape is only tested at the start of the window);
a line whose headword pattern fails is never a boundary; and a
non-boundary line becomes body text of the open entry, or is discarded
when no entry is open. -/
theorem C3_boundary_validation (line : List Char) :
    (∀ g e, header_match line = some (g, e) →
        (accept_line line = true ↔
          (∃ c ∈ (line.drop e).take 100, isArabicC c = true) ∨
            ∃ c0 rest, (line.drop e).take 100 = c0 :: rest ∧ isCyrL c0 = true ∧
              ∃ n, n ≤ 6 ∧ (rest.take n).all isLangC = true ∧
                startsWithWs (rest.drop n) = true)) ∧
      (header_match line = none → accept_line line = false) ∧
      (∀ (rest : List (List Char)) (inE : Bool), accept_line line = true →
          tagLinesGo (line :: rest) inE = LineTag.header :: tagLinesGo rest true) ∧
      (∀ (rest : List (List Char)) (inE : Bool), accept_line line = false →
          tagLinesGo (line :: rest) inE =
            (if inE then LineTag.body else LineTag.noise) :: tagLinesGo rest inE) := by
  refine ⟨?_, ?_, ?_, ?_⟩
  · intro g e h
    simp only [accept_line, h, Bool.or_eq_true, List.any_eq_true, has_marker_iff]
  · intro h
    simp [accept_line, h]
  · intro rest inE h
    simp [tagLinesGo, h]
  · intro rest inE h
    cases inE <;> simp [tagLinesGo, h]

/-- Witness for C3: the line `"АБ кит. хоб"` is accepted, and the
theorem exhibits the marker shape in its window. -/
theorem C3_witness :
    (∃ c ∈ (("АБ кит. хоб".toList.drop 3).take 100), isArabicC c = true) ∨
      ∃ c0 rest, ("АБ кит. хоб".toList.drop 3).take 100 = c0 :: rest ∧ isCyrL c0 = true ∧
        ∃ n, n ≤ 6 ∧ (rest.take n).all isLangC = true ∧
          startsWithWs (rest.drop n) = true := by
  have h := (C3_boundary_validation "АБ кит. хоб".toList).1 "АБ".toList 3 (by decide)
  exact h.mp (by decide)

/-- Counting a tag just placed. -/
theorem count_tag_cons_self (t : LineTag) (l : List LineTag) :
    (t :: l).count t = l.count t + 1 := by
  simp

/-- Counting a tag across a different placed tag. -/
theorem count_tag_cons_ne {a b : LineTag} (h : a ≠ b) (l : List LineTag) :
    (a :: l).count b = l.count b := by
  simp [List.count_cons, h]

/-- Every line receives exactly one tag. -/
theorem tagLinesGo_length :
    ∀ (lines : List (List Char)) (inE : Bool), (tagLinesGo lines inE).length = lines.length := by
  intro lines
  induction lines with
  | nil => intro inE; rfl
  | cons line rest ih =>
    intro inE
    by_cases h : accept_line line = true
    · simp [tagLinesGo, h, ih]
    · have hf : accept_line line = false := Bool.of_not_eq_true h
      cases inE <;> simp [tagLinesGo, hf, ih]

/-- Unfolding of the tagging on an accepted line. -/
theorem tagLinesGo_cons_acc {line : List Char} (h : accept_line line = true)
    (rest : List (List Char)) (inE : Bool) :
    tagLinesGo (line :: rest) inE = LineTag.header :: tagLinesGo rest true := by
  simp [tagLinesGo, h]

/-- Unfolding of the tagging on a rejected line. -/
theorem tagLinesGo_cons_rej {line : List Char} (h : accept_line line = false)
    (rest : List (List Char)) (inE : Bool) :
    tagLinesGo (line :: rest) inE =
      (if inE then LineTag.body else LineTag.noise) :: tagLinesGo rest inE := by
  cases inE <;> simp [tagLinesGo, h]

/-- One raw entry block is flushed per accepted header (plus the block
already open in the state). -/
theorem segmentBlocksGo_length :
    ∀ (lines : List (List Char)) (cur : Option (List Char × List (List Char))),
      (segmentBlocksGo lines cur).length =
        cur.isSome.toNat + (tagLinesGo lines cur.isSome).count LineTag.header := by
  intro lines
  induction lines with
  | nil =>
    intro cur
    cases cur <;> simp [segmentBlocksGo, tagLinesGo]
  | cons line rest ih =>
    intro cur
    by_cases h : accept_line line = true
    · rw [tagLinesGo_cons_acc h, count_tag_cons_self]
      have h2 := ih (some (pyStrip line, []))
      simp only [Option.isSome_some, Bool.toNat_true] at h2
      cases cur with
      | none =>
        simp only [segmentBlocksGo, if_pos h, List.length_append, h2, List.length_nil,
          Option.isSome_none, Bool.toNat_false]
        omega
      | some hb =>
        simp only [segmentBlocksGo, if_pos h, List.length_append, h2, List.length_cons,
          List.length_nil, Option.isSome_some, Bool.toNat_true]
        omega
    · have hf : accept_line line = false := Bool.of_not_eq_true h
      rw [tagLinesGo_cons_rej hf]
      cases cur with
      | none =>
        simp only [segmentBlocksGo, if_neg h, Option.isSome_none, Bool.toNat_false]
        rw [ih none]
        simp [List.count_cons]
      | some hb =>
        simp only [segmentBlocksGo, if_neg h, Option.isSome_some, Bool.toNat_true]
        rw [ih (some (hb.1, hb.2 ++ [pyStrip line]))]
        simp [List.count_cons]

/-- The body lines of the produced blocks are exactly the lines tagged
as body text (plus the body already accumulated in the state). -/
theorem segmentBlocksGo_body_sum :
    ∀ (lines : List (List Char)) (cur : Option (List Char × List (List Char))),
      ((segmentBlocksGo lines cur).map (fun b => b.2.length)).sum =
        (cur.map (fun hb => hb.2.length)).getD 0 +
          (tagLinesGo lines cur.isSome).count LineTag.body := by
  intro lines
  induction lines with
  | nil =>
    intro cur
    cases cur <;> simp [segmentBlocksGo, tagLinesGo]
  | cons line rest ih =>
    intro cur
    by_cases h : accept_line line = true
    · rw [tagLinesGo_cons_acc h, count_tag_cons_ne (by simp)]
      have h2 := ih (some (pyStrip line, []))
      simp only [Option.isSome_some, Option.map_some', Option.getD_some, List.length_nil] at h2
      cases cur with
      | none =>
        simp only [segmentBlocksGo, if_pos h, List.map_append, List.sum_append, h2,
          List.map_nil, List.sum_nil, Option.map_none', Option.getD_none, Option.isSome_some]
        omega
      | some hb =>
        simp only [segmentBlocksGo, if_pos h, List.map_append, List.sum_append, h2,
          List.map_cons, List.map_nil, List.sum_cons, List.sum_nil, Option.map_some',
          Option.getD_some, Option.isSome_some]
        omega
    · have hf : accept_line line = false := Bool.of_not_eq_true h
      rw [tagLinesGo_cons_rej hf]
      cases cur with
      | none =>
        simp only [segmentBlocksGo, if_neg h, Option.isSome_none, Option.map_none',
          Option.getD_none]
        rw [ih none]
        simp [List.count_cons]
      | some hb =>
        simp only [segmentBlocksGo, if_neg h, Option.isSome_some, Option.map_some',
          Option.getD_some]
        rw [ih (some (hb.1, hb.2 ++ [pyStrip line]))]
        simp [List.count_cons]
        omega

/-- The row stream of the segmentation loop is the concatenation of the
rows of the raw entry blocks it produces. -/
theorem parse_linesGo_blocks :
    ∀ (lines : List (List Char)) (cur : Option (List Char)) (body : List (List Char)),
      parse_linesGo lines cur body =
        (segmentBlocksGo lines (cur.map (fun h => (h, body)))).flatMap
          (fun b => (process_entry b.1 (joinNL b.2)).getD []) := by
  intro lines
  induction lines with
  | nil =>
    intro cur body
    cases cur <;> simp [parse_linesGo, segmentBlocksGo]
  | cons line rest ih =>
    intro cur body
    cases hhm : header_match line with
    | none =>
      have hacc : ¬ accept_line line = true := by simp [accept_line, hhm]
      cases cur with
      | none =>
        simp only [parse_linesGo, hhm, Option.map_none', segmentBlocksGo, if_neg hacc]
        exact ih none body
      | some h =>
        simp only [parse_linesGo, hhm, Option.map_some', segmentBlocksGo, if_neg hacc]
        exact ih (some h) (body ++ [pyStrip line])
    | some ge =>
      by_cases hw : (((line.drop ge.2).take 100).any isArabicC ||
          has_marker ((line.drop ge.2).take 100)) = true
      · have hacc : accept_line line = true := by
          simp only [accept_line, hhm]
          exact hw
        have htail := ih (some (pyStrip line)) []
        simp only [Option.map_some'] at htail
        cases cur with
        | none =>
          simp only [parse_linesGo, hhm, if_pos hw, Option.map_none', segmentBlocksGo,
            if_pos hacc]
          simpa using htail
        | some h =>
          simp only [parse_linesGo, hhm, if_pos hw, Option.map_some', segmentBlocksGo,
            if_pos hacc]
          rw [List.flatMap_append, htail]
          simp
      · have hacc : ¬ accept_line line = true := by
          simp only [accept_line, hhm]
          exact hw
        cases cur with
        | none =>
          simp only [parse_linesGo, hhm, if_neg hw, Option.map_none', segmentBlocksGo,
            if_neg hacc]
          exact ih none body
        | some h =>
          simp only [parse_linesGo, hhm, if_neg hw, Option.map_some', segmentBlocksGo,
            if_neg hacc]
          exact ih (some h) (body ++ [pyStrip line])

/-- With no accepted header, segmentation produces no block. -/
theorem segmentBlocksGo_empty :
    ∀ lines : List (List Char), (∀ line ∈ lines, accept_line line = false) →
      segmentBlocksGo lines none = [] := by
  intro lines
  induction lines with
  | nil => intro _; rfl
  | cons line rest ih =>
    intro h
    have h1 := h line (by simp)
    simp only [segmentBlocksGo, if_neg (by simp [h1] : ¬ accept_line line = true)]
    exact ih (fun l hl => h l (by simp [hl]))

/-- Every line's tag is header, body or noise, so the three counts
partition the lines. -/
theorem count_tag_partition :
    ∀ l : List LineTag,
      l.count LineTag.header + l.count LineTag.body + l.count LineTag.noise = l.length := by
  intro l
  induction l with
  | nil => rfl
  | cons t rest ih =>
    cases t <;> simp [List.count_cons] <;> omega

/-- C4: for every input document, segmentation emits exactly one raw
entry block per accepted header line; every line remaining after
page-marker removal is accounted for exactly once - as the header of
one block, as a body line of one block, or as discarded pre-entry
noise - with no duplication or loss; the parser's output is exactly the
concatenation of the rows of those blocks; and a document with zero
accepted headers yields the empty output rather than an error. -/
theorem C4_line_accounting (text : List Char)
    (lines : List (List Char)) (hl : lines = splitLines (removePageMarkers text))
    (tags : List LineTag) (ht : tags = tagLines lines) :
    tags.length = lines.length ∧
    (segmentBlocks lines).length = tags.count LineTag.header ∧
    ((segmentBlocks lines).map (fun b => b.2.length)).sum = tags.count LineTag.body ∧
    tags.count LineTag.header + tags.count LineTag.body + tags.count LineTag.noise =
      lines.length ∧
    parse_dictionary_text text =
      (segmentBlocks lines).flatMap (fun b => (process_entry b.1 (joinNL b.2)).getD []) ∧
    ((∀ line ∈ lines, accept_line line = false) →
      segmentBlocks lines = [] ∧ parse_dictionary_text text = []) := by
  subst ht
  refine ⟨?_, ?_, ?_, ?_, ?_, ?_⟩
  · simpa [tagLines] using tagLinesGo_length lines false
  · simpa [tagLines, segmentBlocks] using segmentBlocksGo_length lines none
  · simpa [tagLines, segmentBlocks] using segmentBlocksGo_body_sum lines none
  · rw [count_tag_partition (tagLines lines)]
    simpa [tagLines] using tagLinesGo_length lines false
  · have h := parse_linesGo_blocks lines none []
    simp only [Option.map_none'] at h
    rw [parse_dictionary_text, ← hl, h]
    rfl
  · intro hall
    have he : segmentBlocks lines = [] := segmentBlocksGo_empty lines hall
    refine ⟨he, ?_⟩
    have h := parse_linesGo_blocks lines none []
    simp only [Option.map_none'] at h
    rw [parse_dictionary_text, ← hl, h]
    rw [show segmentBlocksGo lines none = segmentBlocks lines from rfl, he]
    rfl

/-- Witness for C4: the two-line document `"plain\ntext"` has no
accepted header, so it yields no block and no row. -/
theorem C4_witness :
    segmentBlocks (splitLines (removePageMarkers "plain\ntext".toList)) = [] ∧
      parse_dictionary_text "plain\ntext".toList = [] :=
  (C4_line_accounting "plain\ntext".toList _ rfl _ rfl).2.2.2.2.2 (by decide)

/-- A successful lazy capture splits its input: the captured text is the
consumed, nonempty, digit-free span, and the boundary lookahead holds at
the unconsumed rest. -/
theorem growT_sound :
    ∀ (rem acc t rest : List Char), growT acc rem = some (t, rest) →
      ∃ u, t = acc ++ u ∧ rem = u ++ rest ∧ u ≠ [] ∧
        u.all (fun c => !isDigitC c) = true ∧ laTest rest = true := by
  intro rem
  induction rem with
  | nil => intro acc t rest h; cases h
  | cons c0 r0 ih =>
    intro acc t rest h
    rw [growT] at h
    by_cases hd : isDigitC c0 = true
    · rw [if_pos hd] at h; cases h
    · rw [if_neg hd] at h
      by_cases hla : laTest r0 = true
      · rw [if_pos hla] at h
        injection h with h1
        have ht : t = acc ++ [c0] := (congrArg (fun q => q.1) h1).symm
        have hr : rest = r0 := (congrArg (fun q => q.2) h1).symm
        subst ht hr
        refine ⟨[c0], rfl, rfl, by simp, ?_, hla⟩
        simp [Bool.of_not_eq_true hd]
      · rw [if_neg hla] at h
        obtain ⟨u, hu1, hu2, hu3, hu4, hu5⟩ := ih (acc ++ [c0]) t rest h
        refine ⟨c0 :: u, ?_, ?_, by simp, ?_, hu5⟩
        · rw [hu1]; simp
        · rw [hu2]; simp
        · simp [hu4, Bool.of_not_eq_true hd]

/-- A successful whitespace-backtracking attempt consumed between one
and `k` characters of whitespace before the capture. -/
theorem tryWs_sound :
    ∀ (k : Nat) (rest1 t rest : List Char), tryWs k rest1 = some (t, rest) →
      ∃ j, 1 ≤ j ∧ j ≤ k ∧ growT [] (rest1.drop j) = some (t, rest) := by
  intro k
  induction k with
  | zero => intro rest1 t rest h; cases h
  | succ m ih =>
    intro rest1 t rest h
    rw [tryWs] at h
    cases hg : growT [] (rest1.drop (m + 1)) with
    | some p =>
      rw [hg] at h
      injection h with h1
      exact ⟨m + 1, by omega, by omega, by rw [hg, h1]⟩
    | none =>
      rw [hg] at h
      obtain ⟨j, hj1, hj2, hj3⟩ := ih rest1 t rest h
      exact ⟨j, hj1, by omega, hj3⟩

/-- A successful anchored match of the numbered pattern decomposes its
input as digits, period, whitespace, the digit-free capture, and a rest
satisfying the boundary lookahead. -/
theorem matchNumAt_sound (s : List Char) (num : Nat) (t rest : List Char)
    (h : matchNumAt s = some (num, t, rest)) :
    ∃ dig ws, s = dig ++ '.' :: (ws ++ (t ++ rest)) ∧
      dig ≠ [] ∧ dig.all isDigitC = true ∧ num = natOfDigits dig ∧
      ws ≠ [] ∧ ws.all isSpaceC = true ∧
      t ≠ [] ∧ t.all (fun c => !isDigitC c) = true ∧ laTest rest = true := by
  unfold matchNumAt at h
  split at h
  · cases h
  · rename_i hdig
    split at h
    · rename_i rest1 hdrop
      split at h
      · cases h
      · rename_i hws0
        split at h
        · rename_i p hp
          injection h with h1
          have hnum : num = natOfDigits (s.takeWhile isDigitC) :=
            (congrArg (fun q => q.1) h1).symm
          have ht : t = p.1 := (congrArg (fun q => q.2.1) h1).symm
          have hrest : rest = p.2 := (congrArg (fun q => q.2.2) h1).symm
          subst ht hrest
          obtain ⟨j, hj1, hj2, hg⟩ := tryWs_sound _ rest1 p.1 p.2 (by rw [hp])
          obtain ⟨u, hu1, hu2, hu3, hu4, hu5⟩ := growT_sound _ [] p.1 p.2 hg
          simp only [List.nil_append] at hu1
          subst hu1
          refine ⟨s.takeWhile isDigitC, rest1.take j, ?_, hdig, ?_, hnum, ?_, ?_, hu3, hu4, hu5⟩
          · conv_lhs => rw [← List.take_append_drop (s.takeWhile isDigitC).length s]
            rw [show s.take (s.takeWhile isDigitC).length = s.takeWhile isDigitC from
              (List.prefix_iff_eq_take.mp (List.takeWhile_prefix _)).symm]
            rw [hdrop]
            congr 1
            congr 1
            rw [← hu2, List.take_append_drop]
          · simp only [List.all_eq_true]
            intro c hc
            exact List.mem_takeWhile_imp hc
          · have hlen : (rest1.takeWhile isSpaceC).length ≤ rest1.length :=
              (List.takeWhile_prefix _).length_le
            have h0 : 0 < (rest1.takeWhile isSpaceC).length := List.length_pos.mpr hws0
            intro hcon
            have hL := congrArg List.length hcon
            rw [List.length_take, List.length_nil] at hL
            omega
          · simp only [List.all_eq_true]
            intro c hc
            have htake : rest1.take j = (rest1.takeWhile isSpaceC).take j := by
              conv_lhs => rw [show rest1 =
                rest1.takeWhile isSpaceC ++ rest1.dropWhile isSpaceC from
                (List.takeWhile_append_dropWhile _ _).symm]
              rw [List.take_append_of_le_length hj2]
            rw [htake] at hc
            exact List.mem_takeWhile_imp (List.take_subset _ _ hc)
        · cases h
    · cases h

/-- Every pair the scan emits is an anchored match of the numbered
pattern at some position of the input. -/
theorem findNumberedF_sound :
    ∀ (n : Nat) (s : List Char) (p : Nat × List Char), p ∈ findNumberedF n s →
      ∃ pre suf rest, s = pre ++ suf ∧ matchNumAt suf = some (p.1, p.2, rest) := by
  intro n
  induction n with
  | zero => intro s p hp; cases s <;> cases hp
  | succ m ih =>
    intro s p hp
    cases s with
    | nil => cases hp
    | cons a tl =>
      rw [findNumberedF_cons] at hp
      cases hq : matchNumAt (a :: tl) with
      | some q =>
        rw [hq] at hp
        rcases List.mem_cons.mp hp with h1 | h2
        · exact ⟨[], a :: tl, q.2.2, rfl, by rw [h1, hq]⟩
        · obtain ⟨pre, suf, rest, hsplit, hm⟩ := ih q.2.2 p h2
          obtain ⟨dig, ws, hs, _⟩ := matchNumAt_sound (a :: tl) q.1 q.2.1 q.2.2 (by rw [hq])
          refine ⟨dig ++ '.' :: (ws ++ (q.2.1 ++ pre)), suf, rest, ?_, hm⟩
          rw [hs, hsplit]
          simp [List.append_assoc]
      | none =>
        rw [hq] at hp
        obtain ⟨pre, suf, rest, hsplit, hm⟩ := ih tl p hp
        exact ⟨a :: pre, suf, rest, by rw [hsplit]; rfl, hm⟩

/-- C2: sense segmentation, as the code implements it.  Every pair the
numbered-sense parser produces arises from an occurrence of the
numbered pattern in the candidate text - a nonempty digit run, a
period, nonempty whitespace, then a nonempty digit-free capture ending
where the boundary lookahead (whitespace before the next number-period,
or end of text) holds - and carries that occurrence's number and the
trimmed, whitespace-collapsed capture.  When no occurrence exists in
the candidate text (the stripped header-line remainder, a newline, then
the body), the entry gets a single unnumbered sense whose text is the
contamination-cleaned stripped header-line remainder if that is
nonempty, and otherwise the contamination-cleaned stripped body - not
the whitespace-collapsed candidate text. -/
theorem C2_sense_segmentation :
    (∀ (text : List Char) (p : Nat × List Char), p ∈ parse_definitions text →
      ∃ pre dig ws t rest,
        text = pre ++ (dig ++ '.' :: (ws ++ (t ++ rest))) ∧
        dig ≠ [] ∧ dig.all isDigitC = true ∧
        ws ≠ [] ∧ ws.all isSpaceC = true ∧
        t ≠ [] ∧ t.all (fun c => !isDigitC c) = true ∧
        laTest rest = true ∧
        p = (natOfDigits dig, collapseWs (pyStrip t))) ∧
    (∀ (hl d : List Char) (he : List Char × Nat), headword_match hl = some he →
      ∀ r0 r1 r2 r3 : List Char,
        r0 = pyStrip (hl.drop he.2) →
        r1 = (match lang_match r0 with
              | some ae => pyStrip (r0.drop ae.2)
              | none => r0) →
        r2 = (match arabic_match r1 with
              | some ge => pyStrip (r1.drop ge.2)
              | none => r1) →
        r3 = (match register_lookup REGISTER_DOMAIN r2 with
              | some kv => pyStrip (r2.drop kv.1.length)
              | none => r2) →
        parse_definitions (r3 ++ '\n' :: d) = [] →
        process_entry hl d =
          some [{ headword := pyStrip he.1,
                  arabic := (arabic_match r1).map
                    (fun ge => reverse_arabic_word_order (pyStrip ge.1)),
                  language_marker := (lang_match r0).map (fun ae => langExpand ae.1),
                  register := (register_lookup REGISTER_DOMAIN r2).map (fun kv => kv.2),
                  definition_number := none,
                  definition := clean_single_definition
                    (if pyStrip r3 = [] then pyStrip d else pyStrip r3) }]) := by
  constructor
  · intro text p hp
    simp only [parse_definitions, List.mem_map] at hp
    obtain ⟨q, hq, rfl⟩ := hp
    obtain ⟨pre, suf, rest, hsplit, hm⟩ := findNumberedF_sound _ text q hq
    obtain ⟨dig, ws, hs, hd1, hd2, hd3, hw1, hw2, ht1, ht2, hla⟩ :=
      matchNumAt_sound suf q.1 q.2 rest hm
    refine ⟨pre, dig, ws, q.2, rest, ?_, hd1, hd2, hw1, hw2, ht1, ht2, hla, ?_⟩
    · rw [hsplit, hs]
    · rw [hd3]
  · intro hl d he hh r0 r1 r2 r3 h0 h1 h2 h3 hpd
    subst h0 h1 h2 h3
    simp only [process_entry, hh]
    rw [hpd]
    simp [clean_definitions]

/-- Witness for C2: the theorem's first part exhibits the occurrence
structure of the single numbered sense of `"1. ab"`, and its second
part, applied to the header line `"АБ x"` with body `"hello world"`,
yields the single unnumbered sense `"x"`. -/
theorem C2_witness :
    (∃ pre dig ws t rest,
        "1. ab".toList = pre ++ (dig ++ '.' :: (ws ++ (t ++ rest))) ∧
        dig ≠ [] ∧ dig.all isDigitC = true ∧
        ws ≠ [] ∧ ws.all isSpaceC = true ∧
        t ≠ [] ∧ t.all (fun c => !isDigitC c) = true ∧
        laTest rest = true ∧
        ((1 : Nat), "ab".toList) = (natOfDigits dig, collapseWs (pyStrip t))) ∧
      process_entry "АБ x".toList "hello world".toList =
        some [{ headword := "АБ".toList, arabic := none, language_marker := none,
                register := none, definition_number := none,
                definition := "x".toList }] := by
  constructor
  · exact C2_sense_segmentation.1 "1. ab".toList (1, "ab".toList) (by decide)
  · have h := C2_sense_segmentation.2 "АБ x".toList "hello world".toList
      ("АБ".toList, 2) (by decide) _ _ _ _ rfl rfl rfl rfl (by decide)
    rw [h]
    decide
